import Mathlib

/-!
Verification of the Coin Collector multiplayer game (authoritative server,
latency-simulating delay queues, client prediction/reconciliation/interpolation).

Shallow embedding conventions:
- JS numbers carried through JSON (sequence numbers, input components) are
  modelled as rationals; world coordinates are modelled as real numbers because
  the movement rule divides by `Math.hypot` (a square root).
- A JS value that may be missing or non-numeric (where the source guards with
  `Number(v) || 0` or `v || dflt`) is modelled as an `Option`.
- Wall-clock times (`Date.now()` values, millisecond delays) are integers.
- JS objects used as keyed registries are modelled as lists in insertion
  order, which is the enumeration order of `for (const k in obj)` for the
  string keys the program uses.
- Randomness (`Math.random()` draws, uuids) and timer firing instants are
  passed in as explicit parameters of the corresponding operations.
-/

namespace CoinCollector

/-! ## Configuration (src/server/config.js) -/

def PORT : ℕ := 8081
def TICK_RATE : ℚ := 20
def LATENCY_MS : ℤ := 200
def LATENCY_JITTER_MS : ℤ := 10
def MAP_WIDTH : ℚ := 800
def MAP_HEIGHT : ℚ := 600
def PLAYER_SPEED : ℚ := 120
def PICKUP_RADIUS : ℚ := 16
def COIN_SPAWN_INTERVAL_MS : ℤ := 2500
def MAX_COINS : ℕ := 10
def SNAPSHOT_BROADCAST_RATE : ℕ := 1
def MAX_PLAYERS : ℕ := 8

/-- server.js line 12: `MS_PER_TICK = 1000 / TICK_RATE`. -/
def MS_PER_TICK : ℚ := 1000 / TICK_RATE

/-! ## Small JS-semantics helpers -/

/-- Models `Number(v) || 0`: a missing or non-numeric field becomes `0`
(`none` stands for a value whose `Number` coercion is `NaN`). -/
def numOr0 (v : Option ℚ) : ℚ := v.getD 0

/-- Models `v || d` for an optional integer (JS `0` is falsy). -/
def intOr (v : Option ℤ) (d : ℤ) : ℤ :=
  match v with
  | some t => if t = 0 then d else t
  | none => d

/-- Models `v || d` for an optional string (JS empty string is falsy). -/
def strOr (v : Option String) (d : String) : String :=
  match v with
  | some s => if s = "" then d else s
  | none => d

/-- Models `Math.max(-1, Math.min(1, v))`, the server-side clamp of an input
component (server.js lines 157-158). -/
def clampUnit (v : ℚ) : ℚ := max (-1) (min 1 v)

namespace Server

/-! ## Delay queues (server.js lines 31-68, 100-111)

The two latency-simulating queues.  Each entry is tagged with `idx`, its
global enqueue order, used only to state the tie-breaking property; the
program itself carries no such field.  Timer callbacks run atomically on the
single Node event loop, so the possible executions are exactly the
interleavings of the events below:
- `msgArrive` is the `ws.on('message')` handler (lines 78-82): it pushes onto
  `incomingQueue` and immediately calls `sortQueues` (which sorts both queues);
- `sendLatency` is `sendWithLatency` (lines 36-40): it pushes onto
  `outgoingQueue` without sorting;
- `sortTick` is the 200 ms `setInterval(sortQueues, 200)` (line 310);
- `flushIncoming` is `processIncomingQueue` (lines 100-111), which shifts
  entries while the head has `deliverAt <= now`;
- `flushOutgoing` is the 10 ms outgoing flush (lines 50-62), same shift loop.

`deliverAt = now + ONE_WAY_LATENCY + jitter` where
`jitter = Math.floor((Math.random() - 0.5) * 2 * LATENCY_JITTER)` is an
integer in `[-LATENCY_JITTER, LATENCY_JITTER - 1]`; the draw is a parameter. -/

structure QEntry where
  deliverAt : ℤ
  idx : ℕ
  dest : String
  payload : String
deriving DecidableEq

/-- The comparator `(a, b) => a.deliverAt - b.deliverAt` orders by `deliverAt`;
`Array.prototype.sort` is stable (ECMA-262), so we model the sort call as a
stable merge sort under this boolean order. -/
def qle (a b : QEntry) : Bool := a.deliverAt ≤ b.deliverAt

structure Queues where
  incomingQueue : List QEntry
  outgoingQueue : List QEntry
  nextIdx : ℕ
deriving DecidableEq

/-- server.js lines 65-68: sort both queues by `deliverAt` (stably). -/
def sortQueues (s : Queues) : Queues :=
  { s with
    incomingQueue := s.incomingQueue.mergeSort qle
    outgoingQueue := s.outgoingQueue.mergeSort qle }

/-- server.js line 38/45: `deliverAt = Date.now() + ONE_WAY_LATENCY + jitter`. -/
def deliverTime (now jitter : ℤ) : ℤ := now + LATENCY_MS + jitter

/-- server.js lines 43-47: push onto the incoming queue. -/
def queueIncoming (s : Queues) (deliverAt : ℤ) (dest payload : String) : Queues :=
  { s with
    incomingQueue := s.incomingQueue ++ [⟨deliverAt, s.nextIdx, dest, payload⟩]
    nextIdx := s.nextIdx + 1 }

/-- server.js lines 36-40: push onto the outgoing queue. -/
def sendWithLatency (s : Queues) (deliverAt : ℤ) (dest payload : String) : Queues :=
  { s with
    outgoingQueue := s.outgoingQueue ++ [⟨deliverAt, s.nextIdx, dest, payload⟩]
    nextIdx := s.nextIdx + 1 }

/-- The drain loop (lines 52-61 and 102-110): shift entries while the head of
the queue has `deliverAt <= now`.  Returns (delivered, remaining). -/
def drainReady : List QEntry → ℤ → List QEntry × List QEntry
  | [], _ => ([], [])
  | m :: rest, now =>
    if m.deliverAt ≤ now then
      let d := drainReady rest now
      (m :: d.1, d.2)
    else ([], m :: rest)

inductive QEv where
  | msgArrive (now jitter : ℤ) (dest payload : String)
  | sendLatency (now jitter : ℤ) (dest payload : String)
  | sortTick
  | flushIncoming (now : ℤ)
  | flushOutgoing (now : ℤ)
deriving DecidableEq

def qStep (s : Queues) : QEv → Queues
  | .msgArrive now jitter dest payload =>
      sortQueues (queueIncoming s (deliverTime now jitter) dest payload)
  | .sendLatency now jitter dest payload =>
      sendWithLatency s (deliverTime now jitter) dest payload
  | .sortTick => sortQueues s
  | .flushIncoming now => { s with incomingQueue := (drainReady s.incomingQueue now).2 }
  | .flushOutgoing now => { s with outgoingQueue := (drainReady s.outgoingQueue now).2 }

def qInit : Queues := ⟨[], [], 0⟩

def qRun (evs : List QEv) : Queues := evs.foldl qStep qInit

/-- Delivery order demanded by the spec: strictly earlier `deliverAt` first,
ties in enqueue order. -/
def lexLe (a b : QEntry) : Prop :=
  a.deliverAt < b.deliverAt ∨ (a.deliverAt = b.deliverAt ∧ a.idx < b.idx)

instance : DecidableRel lexLe := fun _ _ =>
  inferInstanceAs (Decidable (_ ∨ _))

def LexSorted (q : List QEntry) : Prop := q.Pairwise lexLe

instance : DecidablePred LexSorted := fun q =>
  inferInstanceAs (Decidable (q.Pairwise lexLe))

/-- Entries with equal `deliverAt` appear in enqueue order. -/
def TieOrdered (q : List QEntry) : Prop :=
  q.Pairwise (fun a b => a.deliverAt = b.deliverAt → a.idx < b.idx)

/-- Invariant of the two delay queues under every event interleaving: the
incoming queue is fully sorted (it is re-sorted on every enqueue), the
outgoing queue keeps its ties in enqueue order, and the enqueue tags are
fresh and distinct. -/
def QInv (s : Queues) : Prop :=
  LexSorted s.incomingQueue ∧ TieOrdered s.outgoingQueue ∧
  (∀ e ∈ s.incomingQueue, e.idx < s.nextIdx) ∧
  (∀ e ∈ s.outgoingQueue, e.idx < s.nextIdx) ∧
  (s.incomingQueue.map QEntry.idx).Nodup ∧
  (s.outgoingQueue.map QEntry.idx).Nodup

/-! ## Game state (server.js lines 26-33, 113-177)

`players` and `coins` are JS objects keyed by uuid; `sockets` is a `Map` from
connection to player id (or `null` before join).  All are modelled as lists in
insertion order. -/

/-- A stored input intent (server.js line 133 and 164).  The object created at
join has no `ts` field, hence the `Option`.  `dx`/`dy` are `Option` so that a
state with a non-numeric field (against which the tick defends with
`Number(v) || 0`) is representable. -/
structure Intent where
  seq : ℚ
  dx : Option ℚ
  dy : Option ℚ
  ts : Option ℤ
deriving DecidableEq

/-- server.js line 27.  `α` is the coordinate type (`ℝ` for the running
server; the handlers below never compute with coordinates, so they are stated
polymorphically). -/
structure Player (α : Type) where
  id : String
  name : String
  x : α
  y : α
  vx : α
  vy : α
  score : ℕ
  lastInput : Intent
  lastSeen : ℤ
deriving DecidableEq

/-- server.js line 28. -/
structure Coin (α : Type) where
  id : String
  x : α
  y : α
deriving DecidableEq

/-- Payload of a `type: 'input'` message; every field may be missing or
non-numeric. -/
structure InputMsg where
  seq : Option ℚ
  dx : Option ℚ
  dy : Option ℚ
  ts : Option ℤ
deriving DecidableEq

/-- Parsed client messages (server.js lines 114-177). `other` covers any
well-formed message of unknown type, which the handler ignores. -/
inductive ClientMsg where
  | join (name : Option String)
  | input (m : InputMsg)
  | ping (ts : Option ℤ)
  | other
deriving DecidableEq

/-- Player entry of a `join_ack` packet (server.js line 144). -/
structure AckPlayer (α : Type) where
  id : String
  name : String
  x : α
  y : α
  score : ℕ
deriving DecidableEq

/-- Player entry of a snapshot packet (server.js lines 268-270). -/
structure SnapPlayer (α : Type) where
  id : String
  name : String
  x : α
  y : α
  score : ℕ
  lastInputSeq : ℚ
deriving DecidableEq

/-- Server-to-client packets (the rows of the message table). -/
inductive Packet (α : Type) where
  | welcome (serverTime : ℤ)
  | join_reject (reason : String)
  | join_ack (id : String) (serverTime : ℤ) (mapWidth mapHeight : ℚ)
      (players : List (AckPlayer α)) (coins : List (Coin α))
  | pong (ts : Option ℤ) (serverTime : ℤ)
  | snapshot (serverTick : ℕ) (serverTime : ℤ)
      (players : List (SnapPlayer α)) (coins : List (Coin α))
deriving DecidableEq

structure ServerState (α : Type) where
  players : List (Player α)
  coins : List (Coin α)
  sockets : List (String × Option String)
  serverTick : ℕ
  lastCoinSpawn : ℤ
deriving DecidableEq

/-- `sockets.get(ws)` (outer `Option` is map membership, inner is the stored
possibly-null player id). -/
def socketsGet (s : List (String × Option String)) (conn : String) :
    Option (Option String) :=
  (s.find? (fun e => e.1 = conn)).map (fun e => e.2)

/-- `sockets.set(ws, v)`: update in place if present, else append. -/
def socketsSet (s : List (String × Option String)) (conn : String)
    (v : Option String) : List (String × Option String) :=
  if (s.find? (fun e => e.1 = conn)).isSome then
    s.map (fun e => if e.1 = conn then (conn, v) else e)
  else s ++ [(conn, v)]

/-- The `input` branch of `handleClientMessage` restricted to one player
(server.js lines 150-168): validate fields, drop stale sequence numbers,
otherwise store the intent and update `lastSeen`. -/
def applyInput {α : Type} (p : Player α) (msg : InputMsg) (now : ℤ) : Player α :=
  let seq := numOr0 msg.seq
  let dx := clampUnit (numOr0 msg.dx)
  let dy := clampUnit (numOr0 msg.dy)
  if seq ≤ p.lastInput.seq then p
  else
    { p with
      lastInput := ⟨seq, some dx, some dy, some (intOr msg.ts now)⟩
      lastSeen := now }

/-- The player record created on join (server.js lines 123-135): spawn at
`Math.random() * (MAP - 40) + 20`, score 0, intent `seq 0, dx 0, dy 0`. -/
def joinPlayer {α : Type} [LinearOrderedField α] (newId : String)
    (name : Option String) (now : ℤ) (rx ry : α) : Player α :=
  { id := newId
    name := strOr name ("player-" ++ newId.take 4)
    x := rx * ((MAP_WIDTH : α) - 40) + 20
    y := ry * ((MAP_HEIGHT : α) - 40) + 20
    vx := 0, vy := 0
    score := 0
    lastInput := ⟨0, some 0, some 0, none⟩
    lastSeen := now }

/-- server.js lines 114-177.  `newId` is the uuid drawn for a join; `rx`,
`ry` are the `Math.random()` draws for the spawn position.  Returns the new
state and the packets passed to `sendWithLatency`. -/
def handleClientMessage {α : Type} [LinearOrderedField α] (s : ServerState α)
    (conn : String) (msg : ClientMsg) (now : ℤ) (newId : String) (rx ry : α) :
    ServerState α × List (String × Packet α) :=
  match msg with
  | .join name =>
    if s.players.length ≥ MAX_PLAYERS then
      (s, [(conn, .join_reject "server_full")])
    else
      let p := joinPlayer (α := α) newId name now rx ry
      let players2 := s.players ++ [p]
      ({ s with players := players2, sockets := socketsSet s.sockets conn (some newId) },
        [(conn, .join_ack newId now MAP_WIDTH MAP_HEIGHT
            (players2.map (fun q => ⟨q.id, q.name, q.x, q.y, q.score⟩))
            s.coins)])
  | .input m =>
    match socketsGet s.sockets conn with
    | some (some pid) =>
      if (s.players.find? (fun p => p.id = pid)).isSome then
        ({ s with players := s.players.map (fun p => if p.id = pid then applyInput p m now else p) }, [])
      else (s, [])
    | _ => (s, [])
  | .ping ts => (s, [(conn, .pong ts now)])
  | .other => (s, [])

/-! ## Simulation tick (server.js lines 183-246) -/

/-- `Math.hypot`. -/
noncomputable def hypotR (x y : ℝ) : ℝ := Real.sqrt (x ^ 2 + y ^ 2)

/-- Movement integration for one player (server.js lines 190-207), factored so
that the pre-clamp displacement can be named.  The argument is
`p.lastInput || { dx: 0, dy: 0 }` (line 190); literals: `0.0001 = 1/10000`,
`1.2 = 6/5`. -/
noncomputable def displacement (li : Option Intent) : ℝ × ℝ :=
  let input := li.getD ⟨0, some 0, some 0, none⟩
  let intendedDx : ℝ := (numOr0 input.dx : ℚ)
  let intendedDy : ℝ := (numOr0 input.dy : ℚ)
  let len := hypotR intendedDx intendedDy
  let nd : ℝ × ℝ := if 1 / 10000 < len then (intendedDx / len, intendedDy / len) else (0, 0)
  let moveDist : ℝ := ((PLAYER_SPEED * (MS_PER_TICK / 1000) : ℚ) : ℝ)
  let maxAllowedMove := moveDist * (6 / 5)
  let dx := nd.1 * moveDist
  let dy := nd.2 * moveDist
  (max (-maxAllowedMove) (min maxAllowedMove dx),
   max (-maxAllowedMove) (min maxAllowedMove dy))

/-- server.js lines 213-214: clamp the position to the map rectangle inset by
the entity radius 8. -/
noncomputable def clampPos (x y : ℝ) : ℝ × ℝ :=
  (max (0 + 8) (min ((MAP_WIDTH : ℝ) - 8) x),
   max (0 + 8) (min ((MAP_HEIGHT : ℝ) - 8) y))

/-- Movement phase for one player (server.js lines 188-215). -/
noncomputable def movePlayer (p : Player ℝ) : Player ℝ :=
  let d := displacement (some p.lastInput)
  let xy := clampPos (p.x + d.1) (p.y + d.2)
  { p with x := xy.1, y := xy.2 }

/-- server.js line 223. -/
def dist2 {α : Type} [LinearOrderedField α] (p : Player α) (c : Coin α) : α :=
  (p.x - c.x) ^ 2 + (p.y - c.y) ^ 2

/-- Inner loop of coin resolution (server.js lines 221-232): scan players in
registry order; the first within pickup radius collects the coin (score + 1)
and the scan breaks.  Returns the updated list and the collector id, or
`none` when no player is in range. -/
def scanPickup {α : Type} [LinearOrderedField α] (c : Coin α) :
    List (Player α) → Option (List (Player α) × String)
  | [] => none
  | p :: ps =>
    if dist2 p c ≤ (PICKUP_RADIUS : α) * (PICKUP_RADIUS : α) then
      some ({ p with score := p.score + 1 } :: ps, p.id)
    else
      match scanPickup c ps with
      | some r => some (p :: r.1, r.2)
      | none => none

/-- One iteration of the outer coin loop (server.js lines 219-233), threading
(players, surviving coins, picked list). -/
def rcStep {α : Type} [LinearOrderedField α]
    (acc : List (Player α) × List (Coin α) × List (String × String)) (c : Coin α) :
    List (Player α) × List (Coin α) × List (String × String) :=
  match scanPickup c acc.1 with
  | some r => (r.1, acc.2.1, acc.2.2 ++ [(c.id, r.2)])
  | none => (acc.1, acc.2.1 ++ [c], acc.2.2)

/-- Coin resolution phase (server.js lines 218-233): fold over the coins
present at the start of the phase; collected coins are deleted, the rest
survive in order.  Returns (players, surviving coins, picked list), where the
picked list holds `(coinId, by)` pairs as pushed on line 227. -/
def resolveCoins {α : Type} [LinearOrderedField α] (players : List (Player α))
    (coins : List (Coin α)) :
    List (Player α) × List (Coin α) × List (String × String) :=
  coins.foldl rcStep (players, [], [])

/-- The pickup test of server.js line 224 as a boolean predicate. -/
def hitB {α : Type} [LinearOrderedField α] (c : Coin α) (p : Player α) : Bool :=
  decide (dist2 p c ≤ (PICKUP_RADIUS : α) * (PICKUP_RADIUS : α))

/-- Score increment on pickup (server.js line 226). -/
def bump {α : Type} (p : Player α) : Player α := { p with score := p.score + 1 }

/-- Everything about a player except the score; coin resolution leaves this
projection untouched. -/
def stripS {α : Type} (p : Player α) :
    String × String × α × α × α × α × Intent × ℤ :=
  (p.id, p.name, p.x, p.y, p.vx, p.vy, p.lastInput, p.lastSeen)

/-- server.js lines 249-260: spawn one coin if below capacity; `rx`, `ry` are
the `Math.random()` draws, `margin = 20`. -/
def maybeSpawnCoin {α : Type} [LinearOrderedField α] (coins : List (Coin α))
    (newId : String) (rx ry : α) : List (Coin α) :=
  if coins.length ≥ MAX_COINS then coins
  else
    coins ++ [{ id := newId
                x := rx * ((MAP_WIDTH : α) - 20 * 2) + 20
                y := ry * ((MAP_HEIGHT : α) - 20 * 2) + 20 }]

/-- One simulation tick (server.js lines 183-246): movement, coin resolution,
time-gated spawn.  Snapshot broadcast (lines 243-245) only serializes state
into the outgoing delay queue and mutates no game state, so it is omitted
here; the snapshot contents are `snapshotOfState` below.  Returns the new
state and the `pickedCoins` list. -/
noncomputable def gameTick (s : ServerState ℝ) (now : ℤ) (coinId : String)
    (rx ry : ℝ) : ServerState ℝ × List (String × String) :=
  let moved := s.players.map movePlayer
  let rc := resolveCoins moved s.coins
  let doSpawn := COIN_SPAWN_INTERVAL_MS ≤ now - s.lastCoinSpawn
  ({ s with
      players := rc.1
      coins := if doSpawn then maybeSpawnCoin rc.2.1 coinId rx ry else rc.2.1
      serverTick := s.serverTick + 1
      lastCoinSpawn := if doSpawn then now else s.lastCoinSpawn },
   rc.2.2)

/-- Snapshot contents (server.js lines 263-272). -/
def snapshotOfState {α : Type} (s : ServerState α) (now : ℤ) : Packet α :=
  .snapshot s.serverTick now
    (s.players.map (fun p => ⟨p.id, p.name, p.x, p.y, p.score, p.lastInput.seq⟩))
    s.coins

/-! ## Whole-server event machine

Each constructor is one timer or socket callback that mutates game state
(connection handler lines 71-97, message delivery lines 100-111 feeding
`handleClientMessage`, the tick loop line 287, the housekeeping sweep lines
290-307, and the debug-console `spawn` command line 322). -/

inductive SEv where
  | connect (conn : String) (now : ℤ)
  | clientMsg (conn : String) (msg : ClientMsg) (now : ℤ) (newId : String) (rx ry : ℝ)
  | tick (now : ℤ) (coinId : String) (rx ry : ℝ)
  | close (conn : String)
  | sweep (now : ℤ)
  | spawnCmd (coinId : String) (rx ry : ℝ)

/-- server.js lines 84-93: on close, drop the socket entry and, when it was
joined, the player. -/
def closeConn (s : ServerState ℝ) (conn : String) : ServerState ℝ :=
  let pid := socketsGet s.sockets conn
  let s1 := { s with sockets := s.sockets.filter (fun e => ¬ e.1 = conn) }
  match pid with
  | some (some id) => { s1 with players := s1.players.filter (fun p => ¬ p.id = id) }
  | _ => s1

/-- server.js lines 290-307: remove players idle for more than 60 s together
with their sockets. -/
def sweepTimeouts (s : ServerState ℝ) (now : ℤ) : ServerState ℝ :=
  let removed := (s.players.filter (fun p => 60000 < now - p.lastSeen)).map (fun p => p.id)
  { s with
    players := s.players.filter (fun p => ¬ 60000 < now - p.lastSeen)
    sockets := s.sockets.filter (fun e =>
      match e.2 with
      | some id => ¬ id ∈ removed
      | none => True) }

/-- One server event; the second component is the list of pickups the event
produced (nonempty only for ticks). -/
noncomputable def sStep (s : ServerState ℝ) : SEv → ServerState ℝ × List (String × String)
  | .connect conn _ => ({ s with sockets := socketsSet s.sockets conn none }, [])
  | .clientMsg conn msg now newId rx ry =>
      ((handleClientMessage s conn msg now newId rx ry).1, [])
  | .tick now coinId rx ry => gameTick s now coinId rx ry
  | .close conn => (closeConn s conn, [])
  | .sweep now => (sweepTimeouts s now, [])
  | .spawnCmd coinId rx ry => ({ s with coins := maybeSpawnCoin s.coins coinId rx ry }, [])

def sInit : ServerState ℝ := ⟨[], [], [], 0, 0⟩

/-- Drive `applyInput` over a list of input messages, recording the sequence
number of every message that was applied (observable as a state change). -/
def inputTrace {α : Type} [DecidableEq α] (p : Player α) (msgs : List InputMsg)
    (now : ℤ) : Player α × List ℚ :=
  msgs.foldl
    (fun acc m =>
      let p2 := applyInput acc.1 m now
      (p2, if p2 = acc.1 then acc.2 else acc.2 ++ [numOr0 m.seq]))
    (p, [])

/-- A concrete freshly joined player over `ℚ`, used for closed instances. -/
def demoPlayer : Player ℚ :=
  ⟨"p1", "alice", 100, 100, 0, 0, 0, ⟨0, some 0, some 0, none⟩, 0⟩

/-- Input messages carrying the sequence numbers 1, 2, 2, 1, 5, 4 of the
spec scenario. -/
def demoInputMsgs : List InputMsg :=
  [⟨some 1, some 1, some 0, none⟩,
   ⟨some 2, some 0, some 1, none⟩,
   ⟨some 2, some 1, some 1, none⟩,
   ⟨some 1, some 0, some 0, none⟩,
   ⟨some 5, some (-1), some 0, none⟩,
   ⟨some 4, some 0, some (-1), none⟩]

/-- The `dx` intent component the movement phase reads (server.js lines
190-191): `Number((p.lastInput || dflt).dx) || 0`. -/
def intentDx (li : Option Intent) : ℚ := numOr0 (li.getD ⟨0, some 0, some 0, none⟩).dx

/-- The `dy` intent component (server.js line 192). -/
def intentDy (li : Option Intent) : ℚ := numOr0 (li.getD ⟨0, some 0, some 0, none⟩).dy

/-- The nominal per-tick step `PLAYER_SPEED * dt` (server.js line 201). -/
noncomputable def nominalStep : ℝ := ((PLAYER_SPEED * (MS_PER_TICK / 1000) : ℚ) : ℝ)

/-- The intent vector length `Math.hypot(intendedDx, intendedDy)` of
server.js line 195. -/
noncomputable def tickLen (li : Option Intent) : ℝ :=
  hypotR ((intentDx li : ℚ) : ℝ) ((intentDy li : ℚ) : ℝ)

/-- The normalized direction of server.js lines 196-200. -/
noncomputable def normDir (li : Option Intent) : ℝ × ℝ :=
  if 1 / 10000 < tickLen li then
    (((intentDx li : ℚ) : ℝ) / tickLen li, ((intentDy li : ℚ) : ℝ) / tickLen li)
  else (0, 0)

/-- The per-component anti-cheat clamp of server.js lines 203-207. -/
noncomputable def clampMove (v : ℝ) : ℝ :=
  max (-(nominalStep * (6 / 5))) (min (nominalStep * (6 / 5)) v)

/-- Modelled from the spec wording of the movement rule, for comparison with
`displacement`: normalize the intent vector to unit length (the zero vector
stays zero) and scale by the nominal step `m`. -/
noncomputable def specNormalizeMove (ix iy m : ℝ) : ℝ × ℝ :=
  if ix = 0 ∧ iy = 0 then (0, 0)
  else (ix / hypotR ix iy * m, iy / hypotR ix iy * m)

/-- The uuids consumed by the join requests of a trace (accepted or not);
`uuidv4` collisions are assumed away by requiring this list to be nodup. -/
def joinIds : List SEv → List String
  | [] => []
  | .clientMsg _ (.join _) _ newId _ _ :: evs => newId :: joinIds evs
  | _ :: evs => joinIds evs

/-- Number of pickups a given player id is credited with in a pick list. -/
def pickCount (picks : List (String × String)) (id : String) : ℕ :=
  (picks.filter (fun pk => pk.2 = id)).length

/-- Score bookkeeping invariant carried along a server trace: every player id
and every pick id comes from a past join, player ids are distinct, and every
score equals the number of pickups credited to that id. -/
def ScoreInv (s : ServerState ℝ) (picks : List (String × String))
    (used : List String) : Prop :=
  (∀ p ∈ s.players, p.id ∈ used) ∧
  (∀ pk ∈ picks, pk.2 ∈ used) ∧
  (s.players.map Player.id).Nodup ∧
  (∀ p ∈ s.players, p.score = pickCount picks p.id)

/-- Run a trace of server events from the initial state, accumulating all
pickups. -/
noncomputable def sRun (evs : List SEv) : ServerState ℝ × List (String × String) :=
  evs.foldl (fun acc ev =>
    let r := sStep acc.1 ev
    (r.1, acc.2 ++ r.2)) (sInit, [])

end Server

namespace Client

/-! ## Client (src/client/client.js)

Constants from client.js lines 10-15. -/

def PLAYER_SPEED : ℚ := 120
def CLIENT_SEND_RATE : ℚ := 50
def INTERPOLATION_DELAY : ℤ := 220
def SNAPSHOT_BUFFER_MS : ℤ := 2000

/-- A pending input (client.js line 43): pushed by the send loop (line 234)
with a freshly incremented integer sequence number. -/
structure PendingInput where
  seq : ℚ
  dx : ℚ
  dy : ℚ
  ts : ℤ
deriving DecidableEq

/-- client.js line 46. -/
structure LocalState where
  x : ℝ
  y : ℝ
  score : ℕ
  name : String

/-- A buffered snapshot as the client consumes it (client.js line 49). -/
structure SnapshotMsg where
  serverTick : ℕ
  serverTime : ℤ
  players : List (Server.SnapPlayer ℝ)
  coins : List (Server.Coin ℝ)

/-- Client state relevant to reconciliation. -/
structure ReconState where
  joined : Bool
  myId : Option String
  pendingInputs : List PendingInput
  localState : LocalState

/-- client.js line 157: `while (pendingInputs.length && pendingInputs[0].seq <= ackSeq) shift()`. -/
def dropConfirmed (ackSeq : ℚ) : List PendingInput → List PendingInput
  | [] => []
  | pi :: rest => if pi.seq ≤ ackSeq then dropConfirmed ackSeq rest else pi :: rest

/-- client.js lines 177-185: replay each pending input for the nominal send
interval (`dt = CLIENT_SEND_RATE / 1000`), moving along the normalized intent
direction at `PLAYER_SPEED` (`0.0001 = 1/10000`).  No clamping occurs here. -/
noncomputable def replayPending (x y : ℝ) (pis : List PendingInput) : ℝ × ℝ :=
  pis.foldl
    (fun pos pi =>
      let dirLen := Server.hypotR (pi.dx : ℚ) (pi.dy : ℚ)
      let nd : ℝ × ℝ :=
        if 1 / 10000 < dirLen then (((pi.dx : ℚ) : ℝ) / dirLen, ((pi.dy : ℚ) : ℝ) / dirLen)
        else (0, 0)
      (pos.1 + nd.1 * ((PLAYER_SPEED : ℚ) : ℝ) * ((CLIENT_SEND_RATE / 1000 : ℚ) : ℝ),
       pos.2 + nd.2 * ((PLAYER_SPEED : ℚ) : ℝ) * ((CLIENT_SEND_RATE / 1000 : ℚ) : ℝ)))
    (x, y)

/-- client.js lines 144-190 (`processSnapshotForReconciliation`): find the own
entry, drop acknowledged pending inputs, snap-and-replay when the authoritative
position differs by more than the epsilon (`dist2 > 0.0001`), and always adopt
the authoritative score. -/
noncomputable def processSnapshotForReconciliation (st : ReconState)
    (snapshot : SnapshotMsg) : ReconState :=
  if st.joined = false ∨ st.myId.isNone then st
  else
    match snapshot.players.find? (fun p => p.id = st.myId.getD "") with
    | none => st
    | some serverPlayer =>
      let ackSeq := serverPlayer.lastInputSeq
      let pending2 := dropConfirmed ackSeq st.pendingInputs
      let dx := serverPlayer.x - st.localState.x
      let dy := serverPlayer.y - st.localState.y
      let d2 := dx * dx + dy * dy
      let pos2 :=
        if 1 / 10000 < d2 then replayPending serverPlayer.x serverPlayer.y pending2
        else (st.localState.x, st.localState.y)
      { st with
        pendingInputs := pending2
        localState :=
          { st.localState with x := pos2.1, y := pos2.2, score := serverPlayer.score } }

/-! ## Interpolation (client.js lines 52-60, 257-294) -/

/-- client.js line 59. -/
def lerp (a b t : ℝ) : ℝ := a + (b - a) * t

/-- Key list of the JS object built by `ps.forEach(p => map[p.id] = p)`:
first-occurrence order. -/
def snapKeys (ps : List (Server.SnapPlayer ℝ)) : List String :=
  (ps.map (fun p => p.id)).dedup

/-- Lookup in that object: the last assignment wins. -/
def mapOf (ps : List (Server.SnapPlayer ℝ)) (id : String) :
    Option (Server.SnapPlayer ℝ) :=
  (ps.filter (fun p => decide (p.id = id))).getLast?

/-- One rendered remote entity (the record built on lines 286-291). -/
structure RemoteEntity where
  x : ℝ
  y : ℝ
  score : ℕ
  name : String

/-- The scan on lines 262-266: the first consecutive pair of buffered
snapshots whose server times bracket `renderTime`. -/
def findBracket : List SnapshotMsg → ℤ → Option (SnapshotMsg × SnapshotMsg)
  | a :: b :: rest, rt =>
    if a.serverTime ≤ rt ∧ rt ≤ b.serverTime then some (a, b)
    else findBracket (b :: rest) rt
  | _, _ => none

/-- Fallback on lines 267-274: the positions of the last buffered snapshot. -/
def lastKnownPositions (snap : SnapshotMsg) : List (String × RemoteEntity) :=
  snap.players.map (fun p => (p.id, ⟨p.x, p.y, p.score, p.name⟩))

/-- The interpolation fraction of client.js line 277:
`(renderTime - a.serverTime) / Math.max(1, b.serverTime - a.serverTime)`. -/
noncomputable def interpT (a b : SnapshotMsg) (renderTime : ℤ) : ℝ :=
  ((renderTime - a.serverTime : ℤ) : ℝ) /
    ((max 1 (b.serverTime - a.serverTime) : ℤ) : ℝ)

/-- The id set of client.js line 282 (`new Set` insertion order: keys of the
earlier snapshot, then new keys of the later one). -/
def allIds (a b : SnapshotMsg) : List String :=
  snapKeys a.players ++
    (snapKeys b.players).filter (fun id => decide (¬ id ∈ snapKeys a.players))

/-- One interpolated entity (client.js lines 283-291): an id missing from the
earlier snapshot defaults to the origin-based record of line 284, an id
missing from the later one falls back to its earlier record (line 285).  JS
truthiness of `pb.score || pa.score` and `pa.name || pb.name || 'unknown'` is
modelled explicitly. -/
noncomputable def interpEntity (a b : SnapshotMsg) (t : ℝ) (id : String) :
    RemoteEntity :=
  let pa : Server.SnapPlayer ℝ := (mapOf a.players id).getD
    { id := id
      name := strOr ((mapOf b.players id).map (fun p => p.name)) "unknown"
      x := 0, y := 0, score := 0, lastInputSeq := 0 }
  let pb := (mapOf b.players id).getD pa
  { x := lerp pa.x pb.x t
    y := lerp pa.y pb.y t
    score := if pb.score = 0 then pa.score else pb.score
    name := if pa.name = "" then strOr (some pb.name) "unknown" else pa.name }

/-- client.js lines 257-294 (`getRemoteEntityPositions`).  Returns `none` for
an empty buffer (line 259).  When no consecutive pair brackets `renderTime`
the last snapshot is used (lines 267-274).  Otherwise every id present in
either bracketing snapshot is interpolated. -/
noncomputable def getRemoteEntityPositions (buf : List SnapshotMsg)
    (renderTime : ℤ) : Option (List (String × RemoteEntity)) :=
  match buf with
  | [] => none
  | first :: more =>
    match findBracket (first :: more) renderTime with
    | none => some (lastKnownPositions ((first :: more).getLast (by simp)))
    | some ab =>
      some ((allIds ab.1 ab.2).map (fun id =>
        (id, interpEntity ab.1 ab.2 (interpT ab.1 ab.2 renderTime) id)))

end Client

/-! ## Concrete fixtures for closed instances -/

namespace Server

/-- An at-capacity registry (8 players) over `ℚ`. -/
def fullState : ServerState ℚ := ⟨List.replicate 8 demoPlayer, [], [], 0, 0⟩

/-- An empty server state over `ℚ`. -/
def emptyStateQ : ServerState ℚ := ⟨[], [], [], 0, 0⟩

/-- An intent whose vector is tiny but nonzero (`dx = 1/20000 = 0.00005`). -/
def tinyIntent : Intent := ⟨1, some (1 / 20000), some 0, none⟩

/-- A concrete player over `ℝ` resting at `(100, 100)` with zero intent. -/
noncomputable def demoPlayerR : Player ℝ :=
  ⟨"p1", "alice", 100, 100, 0, 0, 0, ⟨0, some 0, some 0, none⟩, 0⟩

/-- A one-player world over `ℝ`. -/
noncomputable def onePlayerState : ServerState ℝ := ⟨[demoPlayerR], [], [], 0, 0⟩

/-- A coin at the same spot as `demoPlayerR`. -/
noncomputable def coinHere : Coin ℝ := ⟨"c1", 100, 100⟩

end Server

namespace Client

/-- A joined client with two pending inputs, predicted exactly at the
authoritative position. -/
noncomputable def demoRecon : ReconState :=
  ⟨true, some "me", [⟨1, 1, 0, 0⟩, ⟨2, 0, 1, 0⟩], ⟨0, 0, 0, "alice"⟩⟩

/-- A snapshot acknowledging sequence 1 for `me`, at the predicted position,
with authoritative score 3. -/
noncomputable def demoSnap : SnapshotMsg :=
  ⟨1, 1000, [⟨"me", "alice", 0, 0, 3, 1⟩], []⟩

/-- Two buffered snapshots at server times 100 and 200; the entity `e` sits at
`(0,0)` in the first and `(10,10)` in the second. -/
noncomputable def demoBuf : List SnapshotMsg :=
  [⟨1, 100, [⟨"e", "n", 0, 0, 0, 0⟩], []⟩,
   ⟨2, 200, [⟨"e", "n", 10, 10, 0, 0⟩], []⟩]

/-- Two buffered snapshots at server times 100 and 200; the entity `b` is
present only in the later one, at `(10, 10)`. -/
noncomputable def demoBufLateOnly : List SnapshotMsg :=
  [⟨1, 100, [⟨"a", "n", 3, 4, 0, 0⟩], []⟩,
   ⟨2, 200, [⟨"a", "n", 3, 4, 0, 0⟩, ⟨"b", "m", 10, 10, 0, 0⟩], []⟩]

end Client

/-! ## Claim C2: input sequence monotonicity -/

/-- C2: an input message is applied (intent stored, last-seen updated) exactly
when its coerced sequence number is strictly greater than the last accepted
one; otherwise the player is left unchanged.  Feeding sequence numbers
1, 2, 2, 1, 5, 4 applies exactly those with sequence 1, 2, 5. -/
theorem input_applied_iff_seq_increases :
    (∀ (α : Type) (p : Server.Player α) (m : Server.InputMsg) (now : ℤ),
      (p.lastInput.seq < numOr0 m.seq →
        Server.applyInput p m now =
          { p with
            lastInput := ⟨numOr0 m.seq, some (clampUnit (numOr0 m.dx)),
              some (clampUnit (numOr0 m.dy)), some (intOr m.ts now)⟩
            lastSeen := now }) ∧
      (numOr0 m.seq ≤ p.lastInput.seq → Server.applyInput p m now = p)) ∧
    (Server.inputTrace Server.demoPlayer Server.demoInputMsgs 0).2 = [1, 2, 5] := by
  constructor
  · intro α p m now
    constructor
    · intro h
      simp only [Server.applyInput]
      rw [if_neg (not_le.mpr h)]
    · intro h
      simp only [Server.applyInput]
      rw [if_pos h]
  · decide

/-- Closed instance of C2: a fresh sequence number 3 with `dx = 2` is stored
clamped, and a sequence number 0 is dropped. -/
theorem input_applied_iff_seq_increases_witness :
    Server.applyInput Server.demoPlayer ⟨some 3, some 2, some 0, none⟩ 7 =
      { Server.demoPlayer with lastInput := ⟨3, some 1, some 0, some 7⟩, lastSeen := 7 } ∧
    Server.applyInput Server.demoPlayer ⟨some 0, some 1, some 0, none⟩ 7 =
      Server.demoPlayer := by
  constructor
  · have h := (input_applied_iff_seq_increases.1 ℚ Server.demoPlayer
      ⟨some 3, some 2, some 0, none⟩ 7).1 (by decide)
    exact h.trans (by decide)
  · exact (input_applied_iff_seq_increases.1 ℚ Server.demoPlayer
      ⟨some 0, some 1, some 0, none⟩ 7).2 (by decide)

/-! ## Claim C9: join capacity -/

/-- C9: a join at (or above) the configured capacity answers with an explicit
`join_reject` carrying reason `server_full` and leaves the whole state, in
particular the player registry, unchanged; a join below capacity appends
exactly one new player (score 0, fresh id) and answers with `join_ack`. -/
theorem join_capacity_behavior {α : Type} [LinearOrderedField α]
    (s : Server.ServerState α) (conn : String) (name : Option String)
    (now : ℤ) (newId : String) (rx ry : α) :
    (MAX_PLAYERS ≤ s.players.length →
      Server.handleClientMessage s conn (.join name) now newId rx ry =
        (s, [(conn, .join_reject "server_full")])) ∧
    (s.players.length < MAX_PLAYERS →
      Server.handleClientMessage s conn (.join name) now newId rx ry =
        ({ s with
            players := s.players ++ [Server.joinPlayer newId name now rx ry]
            sockets := Server.socketsSet s.sockets conn (some newId) },
          [(conn, .join_ack newId now MAP_WIDTH MAP_HEIGHT
              ((s.players ++ [Server.joinPlayer newId name now rx ry]).map
                (fun q => ⟨q.id, q.name, q.x, q.y, q.score⟩))
              s.coins)])) := by
  constructor
  · intro h
    simp only [Server.handleClientMessage]
    rw [if_pos h]
  · intro h
    simp only [Server.handleClientMessage]
    rw [if_neg (not_le.mpr h)]

/-- Closed instance of C9: a join on a full registry is rejected with
`server_full` and creates nobody; a join on an empty registry creates exactly
one player. -/
theorem join_capacity_behavior_witness :
    Server.handleClientMessage Server.fullState "c1" (.join (some "bob")) 5 "u1" (0 : ℚ) 0 =
      (Server.fullState, [("c1", .join_reject "server_full")]) ∧
    (Server.handleClientMessage Server.emptyStateQ "c1" (.join (some "bob")) 5 "u1" (0 : ℚ) 0).1.players =
      [Server.joinPlayer "u1" (some "bob") 5 0 0] := by
  constructor
  · exact (join_capacity_behavior Server.fullState "c1" (some "bob") 5 "u1" 0 0).1 (by decide)
  · have h := (join_capacity_behavior Server.emptyStateQ "c1" (some "bob") 5 "u1" 0 0).2 (by decide)
    rw [h]
    rfl

/-! ## Coin resolution lemmas -/

section CoinResolution

variable {α : Type} [LinearOrderedField α]

theorem hitB_eq_true {c : Server.Coin α} {p : Server.Player α} :
    Server.hitB c p = true ↔
      Server.dist2 p c ≤ (PICKUP_RADIUS : α) * (PICKUP_RADIUS : α) := by
  simp [Server.hitB]

theorem scanPickup_none_iff (c : Server.Coin α) (ps : List (Server.Player α)) :
    Server.scanPickup c ps = none ↔ ps.find? (Server.hitB c) = none := by
  induction ps with
  | nil => simp [Server.scanPickup]
  | cons p ps ih =>
    by_cases h : Server.dist2 p c ≤ (PICKUP_RADIUS : α) * (PICKUP_RADIUS : α)
    · rw [List.find?_cons_of_pos _ (hitB_eq_true.mpr h)]
      simp [Server.scanPickup, h]
    · rw [List.find?_cons_of_neg _ (by simp [Server.hitB, h]), ← ih]
      cases hsc : Server.scanPickup c ps <;> simp [Server.scanPickup, h, hsc]

theorem scanPickup_some {c : Server.Coin α} {ps : List (Server.Player α)}
    {r : List (Server.Player α) × String} (h : Server.scanPickup c ps = some r) :
    ∃ l1 q l2, ps = l1 ++ q :: l2 ∧
      (∀ a ∈ l1, Server.hitB c a = false) ∧
      Server.hitB c q = true ∧
      r.1 = l1 ++ Server.bump q :: l2 ∧ r.2 = q.id := by
  induction ps generalizing r with
  | nil => simp [Server.scanPickup] at h
  | cons p ps ih =>
    by_cases hp : Server.dist2 p c ≤ (PICKUP_RADIUS : α) * (PICKUP_RADIUS : α)
    · have h2 : some ((Server.bump p) :: ps, p.id) = some r := by
        rw [← h]
        simp [Server.scanPickup, hp, Server.bump]
      have hr := Option.some.inj h2
      refine ⟨[], p, ps, rfl, by simp, hitB_eq_true.mpr hp, ?_, ?_⟩
      · rw [← hr]
        rfl
      · rw [← hr]
    · cases hsc : Server.scanPickup c ps with
      | none =>
        have : Server.scanPickup c (p :: ps) = none := by
          simp [Server.scanPickup, hp, hsc]
        rw [this] at h
        exact absurd h (by simp)
      | some r2 =>
        have h2 : some (p :: r2.1, r2.2) = some r := by
          rw [← h]
          simp [Server.scanPickup, hp, hsc]
        have hr := Option.some.inj h2
        obtain ⟨l1, q, l2, hps, hmiss, hhit, h1, hid⟩ := ih hsc
        refine ⟨p :: l1, q, l2, by rw [hps]; rfl, ?_, hhit, ?_, ?_⟩
        · intro a ha
          rcases List.mem_cons.mp ha with rfl | ha2
          · simp [Server.hitB, hp]
          · exact hmiss a ha2
        · rw [← hr]
          simp [h1]
        · rw [← hr]
          simpa using hid

theorem hitB_congr {c : Server.Coin α} {p q : Server.Player α}
    (h : Server.stripS p = Server.stripS q) : Server.hitB c p = Server.hitB c q := by
  simp only [Server.stripS, Prod.mk.injEq] at h
  obtain ⟨-, -, h3, h4, -⟩ := h
  simp [Server.hitB, Server.dist2, h3, h4]

theorem find?_hitB_congr {c : Server.Coin α} :
    ∀ {ps1 ps : List (Server.Player α)},
      ps1.map Server.stripS = ps.map Server.stripS →
      (ps1.find? (Server.hitB c)).map Server.stripS =
        (ps.find? (Server.hitB c)).map Server.stripS := by
  intro ps1
  induction ps1 with
  | nil =>
    intro ps h
    cases ps with
    | nil => simp
    | cons b m => simp at h
  | cons a l ih =>
    intro ps h
    cases ps with
    | nil => simp at h
    | cons b m =>
      simp only [List.map_cons, List.cons.injEq] at h
      obtain ⟨hab, hlm⟩ := h
      by_cases hb : Server.hitB c b = true
      · have ha : Server.hitB c a = true := by rw [hitB_congr hab]; exact hb
        rw [List.find?_cons_of_pos _ ha, List.find?_cons_of_pos _ hb]
        simp [hab]
      · have ha : ¬ Server.hitB c a = true := by rw [hitB_congr hab]; exact hb
        rw [List.find?_cons_of_neg _ (by simpa using ha),
            List.find?_cons_of_neg _ (by simpa using hb)]
        exact ih hlm

theorem find?_hitB_congr_id {c : Server.Coin α} {ps1 ps : List (Server.Player α)}
    (h : ps1.map Server.stripS = ps.map Server.stripS) :
    (ps1.find? (Server.hitB c)).map Server.Player.id =
      (ps.find? (Server.hitB c)).map Server.Player.id := by
  have h2 := congrArg (Option.map (fun t => t.1)) (find?_hitB_congr (c := c) h)
  have e : ∀ o : Option (Server.Player α),
      (o.map Server.stripS).map (fun t => t.1) = o.map Server.Player.id := by
    intro o
    cases o <;> rfl
  rw [e, e] at h2
  exact h2

theorem find?_hitB_congr_isNone {c : Server.Coin α} {ps1 ps : List (Server.Player α)}
    (h : ps1.map Server.stripS = ps.map Server.stripS) :
    (ps1.find? (Server.hitB c)).isNone = (ps.find? (Server.hitB c)).isNone := by
  have h2 := find?_hitB_congr (c := c) h
  cases h1 : ps1.find? (Server.hitB c) <;> cases hp : ps.find? (Server.hitB c) <;>
    simp [h1, hp] at h2 ⊢

theorem optPair_congr {cid : String} {o1 o2 : Option (Server.Player α)}
    (h : o1.map Server.Player.id = o2.map Server.Player.id) :
    o1.map (fun q => (cid, q.id)) = o2.map (fun q => (cid, q.id)) := by
  cases o1 <;> cases o2 <;> simp_all

/-- The first player a coin scan hits is the `find?` of the hit predicate. -/
theorem scanPickup_find {c : Server.Coin α} {ps : List (Server.Player α)}
    {l1 l2 : List (Server.Player α)} {q : Server.Player α}
    (hps : ps = l1 ++ q :: l2) (hmiss : ∀ a ∈ l1, Server.hitB c a = false)
    (hhit : Server.hitB c q = true) :
    ps.find? (Server.hitB c) = some q := by
  subst hps
  rw [List.find?_append]
  have h1 : l1.find? (Server.hitB c) = none :=
    List.find?_eq_none.mpr (fun x hx => by simp [hmiss x hx])
  rw [h1, List.find?_cons_of_pos _ hhit]
  rfl

/-- Master description of the coin-resolution fold from an arbitrary
accumulator: the score-stripped players are untouched, survivors are the
coins nobody reaches, and the picked list pairs each reached coin with the
first player in scan order inside its pickup radius. -/
theorem rcFold_spec (cs : List (Server.Coin α)) :
    ∀ (ps : List (Server.Player α)) (svs : List (Server.Coin α))
      (pks : List (String × String)),
      ((cs.foldl Server.rcStep (ps, svs, pks)).1.map Server.stripS =
        ps.map Server.stripS) ∧
      ((cs.foldl Server.rcStep (ps, svs, pks)).2.1 =
        svs ++ cs.filter (fun c => (ps.find? (Server.hitB c)).isNone)) ∧
      ((cs.foldl Server.rcStep (ps, svs, pks)).2.2 =
        pks ++ cs.filterMap (fun c => (ps.find? (Server.hitB c)).map
          (fun q => (c.id, q.id)))) := by
  induction cs with
  | nil =>
    intro ps svs pks
    simp
  | cons c cs ih =>
    intro ps svs pks
    rw [List.foldl_cons]
    cases hsc : Server.scanPickup c ps with
    | none =>
      have hfind : ps.find? (Server.hitB c) = none := (scanPickup_none_iff c ps).mp hsc
      have hstep : Server.rcStep (ps, svs, pks) c = (ps, svs ++ [c], pks) := by
        simp [Server.rcStep, hsc]
      rw [hstep]
      obtain ⟨ih1, ih2, ih3⟩ := ih ps (svs ++ [c]) pks
      refine ⟨ih1, ?_, ?_⟩
      · rw [ih2, List.filter_cons]
        simp [hfind]
      · rw [ih3, List.filterMap_cons]
        simp [hfind]
    | some r =>
      obtain ⟨l1, q, l2, hps, hmiss, hhit, h1, hid⟩ := scanPickup_some hsc
      have hfind : ps.find? (Server.hitB c) = some q := scanPickup_find hps hmiss hhit
      have hstrip : r.1.map Server.stripS = ps.map Server.stripS := by
        rw [h1, hps]
        simp [Server.bump, Server.stripS]
      have hstep : Server.rcStep (ps, svs, pks) c =
          (r.1, svs, pks ++ [(c.id, r.2)]) := by
        simp [Server.rcStep, hsc]
      rw [hstep]
      obtain ⟨ih1, ih2, ih3⟩ := ih r.1 svs (pks ++ [(c.id, r.2)])
      refine ⟨by rw [ih1, hstrip], ?_, ?_⟩
      · rw [ih2, List.filter_cons]
        have hn : (ps.find? (Server.hitB c)).isNone = false := by simp [hfind]
        rw [List.filter_congr (fun c2 _ => find?_hitB_congr_isNone (c := c2) hstrip)]
        simp [hn]
      · rw [ih3, List.filterMap_cons]
        rw [List.filterMap_congr
          (fun c2 _ => optPair_congr (find?_hitB_congr_id (c := c2) hstrip))]
        simp [hfind, hid, List.append_assoc]

theorem map_id_of_strip {ps1 ps : List (Server.Player α)}
    (h : ps1.map Server.stripS = ps.map Server.stripS) :
    ps1.map Server.Player.id = ps.map Server.Player.id := by
  have h2 := congrArg (List.map (fun t :
    String × String × α × α × α × α × Server.Intent × ℤ => t.1)) h
  simpa [List.map_map, Function.comp] using h2

theorem pickCount_nil (id : String) : Server.pickCount [] id = 0 := rfl

theorem pickCount_cons_eq (pk : String × String) (id : String)
    (h : pk.2 = id) (pks : List (String × String)) :
    Server.pickCount (pk :: pks) id = Server.pickCount pks id + 1 := by
  simp [Server.pickCount, List.filter_cons, h]

theorem pickCount_cons_ne (pk : String × String) (id : String)
    (h : ¬ pk.2 = id) (pks : List (String × String)) :
    Server.pickCount (pk :: pks) id = Server.pickCount pks id := by
  simp [Server.pickCount, List.filter_cons, h]

/-- Scores through the coin-resolution fold: when player ids are distinct,
every resulting player is an input player whose score grew by exactly the
number of coins credited to its id in the pick list. -/
theorem rcFold_scores (cs : List (Server.Coin α)) :
    ∀ (ps : List (Server.Player α)) (svs : List (Server.Coin α))
      (pks : List (String × String)),
      (ps.map Server.Player.id).Nodup →
      ∀ p2 ∈ (cs.foldl Server.rcStep (ps, svs, pks)).1,
        ∃ p ∈ ps, p2.id = p.id ∧
          p2.score = p.score +
            Server.pickCount (cs.filterMap (fun c => (ps.find? (Server.hitB c)).map
              (fun q => (c.id, q.id)))) p.id := by
  induction cs with
  | nil =>
    intro ps svs pks _ p2 hp2
    exact ⟨p2, by simpa using hp2, rfl, by simp [pickCount_nil]⟩
  | cons c cs ih =>
    intro ps svs pks hnd p2 hp2
    rw [List.foldl_cons] at hp2
    cases hsc : Server.scanPickup c ps with
    | none =>
      have hfind : ps.find? (Server.hitB c) = none := (scanPickup_none_iff c ps).mp hsc
      have hstep : Server.rcStep (ps, svs, pks) c = (ps, svs ++ [c], pks) := by
        simp [Server.rcStep, hsc]
      rw [hstep] at hp2
      obtain ⟨p, hp, hid, hsco⟩ := ih ps (svs ++ [c]) pks hnd p2 hp2
      refine ⟨p, hp, hid, ?_⟩
      rw [List.filterMap_cons]
      simp only [hfind, Option.map_none']
      exact hsco
    | some r =>
      obtain ⟨l1, q, l2, hps, hmiss, hhit, h1, hid⟩ := scanPickup_some hsc
      have hfind : ps.find? (Server.hitB c) = some q := scanPickup_find hps hmiss hhit
      have hstrip : r.1.map Server.stripS = ps.map Server.stripS := by
        rw [h1, hps]
        simp [Server.bump, Server.stripS]
      have hnd1 : (r.1.map Server.Player.id).Nodup := by
        rw [map_id_of_strip hstrip]
        exact hnd
      have hstep : Server.rcStep (ps, svs, pks) c =
          (r.1, svs, pks ++ [(c.id, r.2)]) := by
        simp [Server.rcStep, hsc]
      rw [hstep] at hp2
      obtain ⟨p1, hp1, hid1, hsco1⟩ := ih r.1 svs (pks ++ [(c.id, r.2)]) hnd1 p2 hp2
      have hrw : cs.filterMap (fun c2 => (r.1.find? (Server.hitB c2)).map
          (fun q2 => (c2.id, q2.id))) =
          cs.filterMap (fun c2 => (ps.find? (Server.hitB c2)).map
          (fun q2 => (c2.id, q2.id))) :=
        List.filterMap_congr
          (fun c2 _ => optPair_congr (find?_hitB_congr_id (c := c2) hstrip))
      rw [hrw] at hsco1
      have htot : (c :: cs).filterMap (fun c2 => (ps.find? (Server.hitB c2)).map
          (fun q2 => (c2.id, q2.id))) =
          (c.id, q.id) :: cs.filterMap (fun c2 => (ps.find? (Server.hitB c2)).map
          (fun q2 => (c2.id, q2.id))) := by
        rw [List.filterMap_cons]
        simp [hfind]
      rw [htot]
      have hqid1 : q.id ∉ l1.map Server.Player.id := by
        have h2 : (l1.map Server.Player.id ++ q.id :: l2.map Server.Player.id).Nodup := by
          simpa [hps] using hnd
        have h3 := (List.nodup_append.mp h2).2.2
        intro hmem
        exact h3 hmem (List.mem_cons_self _ _)
      have hqid2 : q.id ∉ l2.map Server.Player.id := by
        have h2 : (l1.map Server.Player.id ++ q.id :: l2.map Server.Player.id).Nodup := by
          simpa [hps] using hnd
        have h3 := (List.nodup_append.mp h2).2.1
        exact (List.nodup_cons.mp h3).1
      rw [h1] at hp1
      rcases List.mem_append.mp hp1 with hin1 | hin2
      · refine ⟨p1, by rw [hps]; exact List.mem_append_left _ hin1, hid1, ?_⟩
        have hne : ¬ ((c.id, q.id).2 = p1.id) := by
          intro he
          have he2 : q.id = p1.id := he
          exact hqid1 (by rw [he2]; exact List.mem_map_of_mem _ hin1)
        rw [pickCount_cons_ne _ p1.id hne]
        exact hsco1
      · rcases List.mem_cons.mp hin2 with rfl | hin3
        · refine ⟨q, by rw [hps]; exact List.mem_append_right _ (List.mem_cons_self _ _),
            by simpa [Server.bump] using hid1, ?_⟩
          rw [pickCount_cons_eq _ q.id rfl]
          have hbid : (Server.bump q).id = q.id := rfl
          have hbsc : (Server.bump q).score = q.score + 1 := rfl
          rw [hbid] at hsco1
          rw [hbsc] at hsco1
          omega
        · refine ⟨p1, by rw [hps]; exact List.mem_append_right _ (List.mem_cons_of_mem _ hin3),
            hid1, ?_⟩
          have hne : ¬ ((c.id, q.id).2 = p1.id) := by
            intro he
            have he2 : q.id = p1.id := he
            exact hqid2 (by rw [he2]; exact List.mem_map_of_mem _ hin3)
          rw [pickCount_cons_ne _ p1.id hne]
          exact hsco1

theorem length_picks_add_survivors (cs : List (Server.Coin α))
    (ps : List (Server.Player α)) :
    (cs.filterMap (fun c => (ps.find? (Server.hitB c)).map
      (fun q => (c.id, q.id)))).length +
    (cs.filter (fun c => (ps.find? (Server.hitB c)).isNone)).length = cs.length := by
  induction cs with
  | nil => simp
  | cons c cs ih =>
    rw [List.filterMap_cons, List.filter_cons]
    cases hf : ps.find? (Server.hitB c) with
    | none =>
      simp only [hf, Option.map_none', Option.isNone_none, if_true, List.length_cons]
      omega
    | some q =>
      simp only [hf, Option.map_some', Option.isNone_some, List.length_cons]
      rw [if_neg (by simp)]
      omega

theorem picksIds_sublist (cs : List (Server.Coin α)) (ps : List (Server.Player α)) :
    ((cs.filterMap (fun c => (ps.find? (Server.hitB c)).map
      (fun q => (c.id, q.id)))).map Prod.fst).Sublist (cs.map Server.Coin.id) := by
  induction cs with
  | nil => simp
  | cons c cs ih =>
    rw [List.filterMap_cons, List.map_cons]
    cases hf : ps.find? (Server.hitB c) with
    | none =>
      simp only [hf, Option.map_none']
      exact ih.cons _
    | some q =>
      simp only [hf, Option.map_some', List.map_cons]
      exact ih.cons₂ _

end CoinResolution

/-! ## Movement helper lemmas -/

/-- Reassociation of the movement body into its named pieces. -/
theorem displacement_parts (li : Option Server.Intent) :
    Server.displacement li =
      (Server.clampMove ((Server.normDir li).1 * Server.nominalStep),
       Server.clampMove ((Server.normDir li).2 * Server.nominalStep)) := rfl

theorem nominalStep_eq : Server.nominalStep = 6 := by
  have h : (PLAYER_SPEED * (MS_PER_TICK / 1000) : ℚ) = 6 := by
    norm_num [PLAYER_SPEED, MS_PER_TICK, TICK_RATE]
  rw [Server.nominalStep, h]
  norm_num

theorem tickLen_nonneg (li : Option Server.Intent) : 0 ≤ Server.tickLen li :=
  Real.sqrt_nonneg _

theorem tickLen_sq (li : Option Server.Intent) :
    Server.tickLen li ^ 2 =
      ((Server.intentDx li : ℝ)) ^ 2 + ((Server.intentDy li : ℝ)) ^ 2 := by
  simp only [Server.tickLen, Server.hypotR]
  exact Real.sq_sqrt (by positivity)

theorem abs_intentDx_le_tickLen (li : Option Server.Intent) :
    |(Server.intentDx li : ℝ)| ≤ Server.tickLen li := by
  have h1 : Real.sqrt (((Server.intentDx li : ℝ)) ^ 2) ≤
      Real.sqrt (((Server.intentDx li : ℝ)) ^ 2 + ((Server.intentDy li : ℝ)) ^ 2) :=
    Real.sqrt_le_sqrt (by nlinarith [sq_nonneg ((Server.intentDy li : ℝ))])
  simpa [Real.sqrt_sq_eq_abs, Server.tickLen, Server.hypotR] using h1

theorem abs_intentDy_le_tickLen (li : Option Server.Intent) :
    |(Server.intentDy li : ℝ)| ≤ Server.tickLen li := by
  have h1 : Real.sqrt (((Server.intentDy li : ℝ)) ^ 2) ≤
      Real.sqrt (((Server.intentDx li : ℝ)) ^ 2 + ((Server.intentDy li : ℝ)) ^ 2) :=
    Real.sqrt_le_sqrt (by nlinarith [sq_nonneg ((Server.intentDx li : ℝ))])
  simpa [Real.sqrt_sq_eq_abs, Server.tickLen, Server.hypotR] using h1

theorem clampMove_eq_self {v : ℝ} (h : |v| ≤ 6) : Server.clampMove v = v := by
  rw [Server.clampMove, nominalStep_eq]
  obtain ⟨h1, h2⟩ := abs_le.mp h
  rw [min_eq_right (by linarith), max_eq_right (by linarith)]

/-- Below the threshold the movement step is zero. -/
theorem displacement_of_small {li : Option Server.Intent}
    (h : Server.tickLen li ≤ 1 / 10000) : Server.displacement li = (0, 0) := by
  rw [displacement_parts, Server.normDir, if_neg (not_lt.mpr h)]
  have h0 : Server.clampMove ((0 : ℝ) * Server.nominalStep) = 0 := by
    rw [zero_mul]
    exact clampMove_eq_self (by norm_num)
  simpa using h0

/-- Above the threshold the movement step is the unit-normalized intent
scaled by the nominal step; the anti-cheat clamp does not bind. -/
theorem displacement_of_large {li : Option Server.Intent}
    (h : 1 / 10000 < Server.tickLen li) :
    Server.displacement li =
      ((Server.intentDx li : ℝ) / Server.tickLen li * Server.nominalStep,
       (Server.intentDy li : ℝ) / Server.tickLen li * Server.nominalStep) := by
  have hLpos : 0 < Server.tickLen li := lt_trans (by norm_num) h
  have hcomp : ∀ w : ℝ, |w| ≤ Server.tickLen li →
      |w / Server.tickLen li * Server.nominalStep| ≤ 6 := by
    intro w hw
    have habs : |w / Server.tickLen li * Server.nominalStep| =
        |w| / Server.tickLen li * 6 := by
      rw [abs_mul, abs_div, abs_of_pos hLpos, nominalStep_eq]
      norm_num
    rw [habs]
    have hle1 : |w| / Server.tickLen li ≤ 1 := (div_le_one hLpos).mpr hw
    nlinarith [abs_nonneg w]
  rw [displacement_parts, Server.normDir, if_pos h]
  simp only
  rw [clampMove_eq_self (hcomp _ (abs_intentDx_le_tickLen li)),
      clampMove_eq_self (hcomp _ (abs_intentDy_le_tickLen li))]

/-- The zero intent has zero length. -/
theorem tickLen_zero_intent (sq : ℚ) (ts : Option ℤ) :
    Server.tickLen (some (⟨sq, some 0, some 0, ts⟩ : Server.Intent)) = 0 := by
  have h1 : Server.tickLen (some (⟨sq, some 0, some 0, ts⟩ : Server.Intent)) =
      Real.sqrt 0 := by
    simp [Server.tickLen, Server.hypotR, Server.intentDx, Server.intentDy, numOr0]
  rw [h1, Real.sqrt_zero]
/-! ## Claim C3: bounds invariant -/

theorem clampPos_bounds (x y : ℝ) :
    8 ≤ (Server.clampPos x y).1 ∧ (Server.clampPos x y).1 ≤ (MAP_WIDTH : ℝ) - 8 ∧
    8 ≤ (Server.clampPos x y).2 ∧ (Server.clampPos x y).2 ≤ (MAP_HEIGHT : ℝ) - 8 := by
  have hw : (8 : ℝ) ≤ (MAP_WIDTH : ℝ) - 8 := by norm_num [MAP_WIDTH]
  have hh : (8 : ℝ) ≤ (MAP_HEIGHT : ℝ) - 8 := by norm_num [MAP_HEIGHT]
  refine ⟨?_, ?_, ?_, ?_⟩
  · calc (8 : ℝ) = 0 + 8 := by norm_num
    _ ≤ (Server.clampPos x y).1 := le_max_left _ _
  · exact max_le (by norm_num [MAP_WIDTH]) (min_le_left _ _)
  · calc (8 : ℝ) = 0 + 8 := by norm_num
    _ ≤ (Server.clampPos x y).2 := le_max_left _ _
  · exact max_le (by norm_num [MAP_HEIGHT]) (min_le_left _ _)

/-- C3: after any simulation tick every player position lies in the world
rectangle inset by the entity radius 8: `x` in `[8, MAP_WIDTH - 8]` and `y`
in `[8, MAP_HEIGHT - 8]`, for every starting state. -/
theorem tick_positions_in_bounds (s : Server.ServerState ℝ) (now : ℤ)
    (cid : String) (rx ry : ℝ) :
    ∀ p ∈ (Server.gameTick s now cid rx ry).1.players,
      8 ≤ p.x ∧ p.x ≤ (MAP_WIDTH : ℝ) - 8 ∧ 8 ≤ p.y ∧ p.y ≤ (MAP_HEIGHT : ℝ) - 8 := by
  intro p hp
  have hp2 : p ∈ (Server.resolveCoins (s.players.map Server.movePlayer) s.coins).1 := by
    simpa [Server.gameTick] using hp
  rw [Server.resolveCoins] at hp2
  have h1 := (rcFold_spec s.coins (s.players.map Server.movePlayer) [] []).1
  have hm : Server.stripS p ∈ (s.players.map Server.movePlayer).map Server.stripS := by
    rw [← h1]
    exact List.mem_map_of_mem _ hp2
  rw [List.map_map] at hm
  obtain ⟨p1, hp1, hstr⟩ := List.mem_map.mp hm
  simp only [Function.comp, Server.stripS, Prod.mk.injEq] at hstr
  obtain ⟨-, -, hx, hy, -⟩ := hstr
  rw [← hx, ← hy]
  exact clampPos_bounds _ _

/-- Closed instance of C3: with one resting player at `(100, 100)` the tick
keeps the position inside the inset rectangle. -/
theorem tick_positions_in_bounds_witness :
    ∃ p ∈ (Server.gameTick Server.onePlayerState 0 "c2" 0 0).1.players,
      (8 ≤ p.x ∧ p.x ≤ (MAP_WIDTH : ℝ) - 8 ∧ 8 ≤ p.y ∧ p.y ≤ (MAP_HEIGHT : ℝ) - 8) ∧
      p.x = 100 ∧ p.y = 100 := by
  have hd : Server.displacement (some Server.demoPlayerR.lastInput) = (0, 0) := by
    apply displacement_of_small
    have h0 : Server.demoPlayerR.lastInput = ⟨0, some 0, some 0, none⟩ := rfl
    rw [h0, tickLen_zero_intent]
    norm_num
  have hmove : Server.movePlayer Server.demoPlayerR =
      { Server.demoPlayerR with x := 100, y := 100 } := by
    rw [Server.movePlayer, hd]
    have hx : Server.clampPos (Server.demoPlayerR.x + (0 : ℝ))
        (Server.demoPlayerR.y + (0 : ℝ)) = (100, 100) := by
      have hpx : Server.demoPlayerR.x = 100 := rfl
      have hpy : Server.demoPlayerR.y = 100 := rfl
      rw [hpx, hpy, Server.clampPos]
      have h1 : ((100 : ℝ) + 0) = 100 := by norm_num
      rw [h1]
      rw [min_eq_right (by norm_num [MAP_WIDTH]), max_eq_right (by norm_num)]
      rw [min_eq_right (by norm_num [MAP_HEIGHT]), max_eq_right (by norm_num)]
    rw [hx]
  have hplayers : (Server.gameTick Server.onePlayerState 0 "c2" 0 0).1.players =
      [{ Server.demoPlayerR with x := 100, y := 100 }] := by
    simp [Server.gameTick, Server.onePlayerState, Server.resolveCoins, Server.rcStep,
      Server.scanPickup, hmove]
  refine ⟨{ Server.demoPlayerR with x := 100, y := 100 }, ?_, ?_, rfl, rfl⟩
  · rw [hplayers]
    exact List.mem_singleton.mpr rfl
  · exact tick_positions_in_bounds Server.onePlayerState 0 "c2" 0 0 _
      (by rw [hplayers]; exact List.mem_singleton.mpr rfl)

/-! ## Claim C4: coin exclusivity -/

/-- C4: in one coin-resolution phase, the picked list pairs each collected
coin with exactly one player — the first in scan order within the pickup
radius; collected plus surviving coins account for every coin present at the
start (so at most that many are removed); with distinct coin ids no coin is
removed twice; and with distinct player ids every player's score grows by
exactly the number of coins credited to it. -/
theorem coin_resolution_exclusive (ps : List (Server.Player ℝ))
    (cs : List (Server.Coin ℝ)) :
    (Server.resolveCoins ps cs).2.2 =
      cs.filterMap (fun c => (ps.find? (Server.hitB c)).map (fun q => (c.id, q.id))) ∧
    (Server.resolveCoins ps cs).2.1 =
      cs.filter (fun c => (ps.find? (Server.hitB c)).isNone) ∧
    (Server.resolveCoins ps cs).2.2.length + (Server.resolveCoins ps cs).2.1.length =
      cs.length ∧
    ((Server.resolveCoins ps cs).2.2.map Prod.fst).Sublist (cs.map Server.Coin.id) ∧
    ((cs.map Server.Coin.id).Nodup → ((Server.resolveCoins ps cs).2.2.map Prod.fst).Nodup) ∧
    ((ps.map Server.Player.id).Nodup →
      ∀ p2 ∈ (Server.resolveCoins ps cs).1, ∃ p ∈ ps, p2.id = p.id ∧
        p2.score = p.score + Server.pickCount ((Server.resolveCoins ps cs).2.2) p.id) := by
  obtain ⟨h1, h2, h3⟩ := rcFold_spec cs ps [] []
  rw [List.nil_append] at h2 h3
  have ha : (Server.resolveCoins ps cs).2.2 =
      cs.filterMap (fun c => (ps.find? (Server.hitB c)).map (fun q => (c.id, q.id))) := by
    rw [Server.resolveCoins]
    exact h3
  have hb : (Server.resolveCoins ps cs).2.1 =
      cs.filter (fun c => (ps.find? (Server.hitB c)).isNone) := by
    rw [Server.resolveCoins]
    exact h2
  refine ⟨ha, hb, ?_, ?_, ?_, ?_⟩
  · rw [ha, hb]
    exact length_picks_add_survivors cs ps
  · rw [ha]
    exact picksIds_sublist cs ps
  · intro hnd
    rw [ha]
    exact (picksIds_sublist cs ps).nodup hnd
  · intro hnd p2 hp2
    rw [Server.resolveCoins] at hp2
    obtain ⟨p, hp, hid, hsco⟩ := rcFold_scores cs ps [] [] hnd p2 hp2
    exact ⟨p, hp, hid, by rw [ha]; exact hsco⟩

/-- Closed instance of C4: one player on top of one coin collects it — the
pick list credits the coin to that player once, no coin survives, and the
score becomes 1. -/
theorem coin_resolution_exclusive_witness :
    (Server.resolveCoins [Server.demoPlayerR] [Server.coinHere]).2.2 = [("c1", "p1")] ∧
    (Server.resolveCoins [Server.demoPlayerR] [Server.coinHere]).2.1 = [] ∧
    ∃ p2 ∈ (Server.resolveCoins [Server.demoPlayerR] [Server.coinHere]).1,
      p2.score = 1 := by
  have hhit : Server.hitB Server.coinHere Server.demoPlayerR = true := by
    apply hitB_eq_true.mpr
    have hd : Server.dist2 Server.demoPlayerR Server.coinHere = 0 := by
      simp [Server.dist2, Server.demoPlayerR, Server.coinHere]
    rw [hd]
    norm_num [PICKUP_RADIUS]
  have hfind : ([Server.demoPlayerR].find? (Server.hitB Server.coinHere)) =
      some Server.demoPlayerR := List.find?_cons_of_pos _ hhit
  obtain ⟨ha, hb, -, -, -, hd⟩ :=
    coin_resolution_exclusive [Server.demoPlayerR] [Server.coinHere]
  have hpicks : (Server.resolveCoins [Server.demoPlayerR] [Server.coinHere]).2.2 =
      [("c1", "p1")] := by
    rw [ha, List.filterMap_cons]
    simp [hfind]
    exact ⟨rfl, rfl⟩
  refine ⟨hpicks, ?_, ?_⟩
  · rw [hb, List.filter_cons]
    simp [hfind]
  · have hmem : ∃ p2, (Server.resolveCoins [Server.demoPlayerR] [Server.coinHere]).1 =
        [p2] := by
      have h1 := (rcFold_spec [Server.coinHere] [Server.demoPlayerR] [] []).1
      rw [← Server.resolveCoins] at h1
      cases hres : (Server.resolveCoins [Server.demoPlayerR] [Server.coinHere]).1 with
      | nil => rw [hres] at h1; simp at h1
      | cons a l =>
        cases l with
        | nil => exact ⟨a, rfl⟩
        | cons b m => rw [hres] at h1; simp at h1
    obtain ⟨p2, hp2⟩ := hmem
    have hmem2 : p2 ∈ (Server.resolveCoins [Server.demoPlayerR] [Server.coinHere]).1 := by
      rw [hp2]
      exact List.mem_singleton.mpr rfl
    obtain ⟨p, hp, hid, hsco⟩ := hd (by simp) p2 hmem2
    refine ⟨p2, hmem2, ?_⟩
    have hpd : p = Server.demoPlayerR := List.mem_singleton.mp hp
    rw [hsco, hpd, hpicks]
    have hc : Server.pickCount [("c1", "p1")] Server.demoPlayerR.id = 1 := by
      have hidp : Server.demoPlayerR.id = "p1" := rfl
      rw [hidp]
      rfl
    rw [hc]
    rfl

/-! ## Claim C5: movement displacement -/


/-- C5 (amended): the pre-clamp displacement has squared magnitude at most
`(1.2 * speed * dt)^2`; when the intent vector is longer than the `0.0001`
threshold it is exactly the unit-normalized intent scaled by `speed * dt`
(so the anti-cheat clamp never binds and the magnitude is exactly the nominal
step); when it is at most the threshold — in particular for the zero vector —
the displacement is zero; a missing intent or non-numeric intent fields give
zero displacement. -/
theorem movement_displacement_behavior (li : Option Server.Intent) :
    (Server.displacement li).1 ^ 2 + (Server.displacement li).2 ^ 2 ≤
      ((6 / 5) * Server.nominalStep) ^ 2 ∧
    (1 / 10000 < Server.tickLen li →
      Server.displacement li =
        ((Server.intentDx li : ℝ) / Server.tickLen li * Server.nominalStep,
         (Server.intentDy li : ℝ) / Server.tickLen li * Server.nominalStep) ∧
      (Server.displacement li).1 ^ 2 + (Server.displacement li).2 ^ 2 =
        Server.nominalStep ^ 2) ∧
    (Server.tickLen li ≤ 1 / 10000 → Server.displacement li = (0, 0)) ∧
    Server.displacement (none : Option Server.Intent) = (0, 0) ∧
    (∀ sq ts, Server.displacement (some ⟨sq, none, none, ts⟩) = (0, 0)) := by
  have hpos : 1 / 10000 < Server.tickLen li →
      Server.displacement li =
        ((Server.intentDx li : ℝ) / Server.tickLen li * Server.nominalStep,
         (Server.intentDy li : ℝ) / Server.tickLen li * Server.nominalStep) ∧
      (Server.displacement li).1 ^ 2 + (Server.displacement li).2 ^ 2 =
        Server.nominalStep ^ 2 := by
    intro h
    have hLpos : 0 < Server.tickLen li := lt_trans (by norm_num) h
    have heq := displacement_of_large h
    refine ⟨heq, ?_⟩
    rw [heq]
    have hLne : Server.tickLen li ≠ 0 := ne_of_gt hLpos
    have hring : ((Server.intentDx li : ℝ) / Server.tickLen li * Server.nominalStep) ^ 2 +
        ((Server.intentDy li : ℝ) / Server.tickLen li * Server.nominalStep) ^ 2 =
        (((Server.intentDx li : ℝ)) ^ 2 + ((Server.intentDy li : ℝ)) ^ 2) *
          Server.nominalStep ^ 2 / Server.tickLen li ^ 2 := by
      field_simp
      ring
    rw [hring, ← tickLen_sq li]
    field_simp
  refine ⟨?_, hpos, fun h => displacement_of_small h, displacement_of_small ?_, ?_⟩
  · by_cases h : 1 / 10000 < Server.tickLen li
    · have h2 := (hpos h).2
      rw [h2, nominalStep_eq]
      norm_num
    · rw [displacement_of_small (not_lt.mp h), nominalStep_eq]
      norm_num
  · have h0 : Server.tickLen (none : Option Server.Intent) = 0 := by
      simp [Server.tickLen, Server.hypotR, Server.intentDx, Server.intentDy, numOr0]
    rw [h0]
    norm_num
  · intro sq ts
    apply displacement_of_small
    have h0 : Server.tickLen (some (⟨sq, none, none, ts⟩ : Server.Intent)) = 0 := by
      simp [Server.tickLen, Server.hypotR, Server.intentDx, Server.intentDy, numOr0]
    rw [h0]
    norm_num

/-- Closed instance of C5: a held unit intent `(1, 0)` moves the full nominal
step `(6, 0)`. -/
theorem movement_displacement_behavior_witness :
    Server.displacement (some ⟨1, some 1, some 0, none⟩) = (6, 0) := by
  have hL : Server.tickLen (some (⟨1, some 1, some 0, none⟩ : Server.Intent)) = 1 := by
    have h1 : Server.tickLen (some (⟨1, some 1, some 0, none⟩ : Server.Intent)) =
        Real.sqrt 1 := by
      simp [Server.tickLen, Server.hypotR, Server.intentDx, Server.intentDy, numOr0]
    rw [h1, Real.sqrt_one]
  have h := ((movement_displacement_behavior (some ⟨1, some 1, some 0, none⟩)).2.1
    (by rw [hL]; norm_num)).1
  rw [h, hL, nominalStep_eq]
  norm_num [Server.intentDx, Server.intentDy, numOr0]

/-- Counterexample to C5 as stated: the intent vector `(0.00005, 0)` is
nonzero, so the claimed unit normalization would move the player by the full
nominal step `(6, 0)`, but the code treats any vector of length at most
`0.0001` as zero and moves `(0, 0)`. -/
theorem movement_not_unit_normalized_cex :
    Server.displacement (some Server.tinyIntent) = (0, 0) ∧
    Server.specNormalizeMove (((1 : ℚ) / 20000 : ℚ) : ℝ) 0 Server.nominalStep = (6, 0) ∧
    ((0, 0) : ℝ × ℝ) ≠ (6, 0) := by
  have hq : (((1 : ℚ) / 20000 : ℚ) : ℝ) = 1 / 20000 := by norm_num
  refine ⟨?_, ?_, by simp [Prod.ext_iff]⟩
  · apply displacement_of_small
    have hL : Server.tickLen (some Server.tinyIntent) = 1 / 20000 := by
      simp only [Server.tickLen, Server.hypotR, Server.intentDx, Server.intentDy, numOr0,
        Server.tinyIntent, Option.getD_some]
      rw [hq]
      rw [show ((1 : ℝ) / 20000) ^ 2 + ((0 : ℚ) : ℝ) ^ 2 = (1 / 20000) ^ 2 by norm_num]
      exact Real.sqrt_sq (by norm_num)
    rw [hL]
    norm_num
  · rw [Server.specNormalizeMove, hq]
    rw [if_neg (by norm_num)]
    have hh : Server.hypotR (1 / 20000) 0 = 1 / 20000 := by
      rw [Server.hypotR]
      rw [show ((1 : ℝ) / 20000) ^ 2 + (0 : ℝ) ^ 2 = (1 / 20000) ^ 2 by norm_num]
      exact Real.sqrt_sq (by norm_num)
    rw [hh, nominalStep_eq]
    norm_num

/-! ## Claim C6: reconciliation -/

/-- The shift loop on an ascending pending list removes exactly the entries
with sequence at most the acknowledged one. -/
theorem dropConfirmed_eq_filter (ack : ℚ) (l : List Client.PendingInput)
    (h : l.Pairwise (fun a b => a.seq < b.seq)) :
    Client.dropConfirmed ack l = l.filter (fun pi => ¬ pi.seq ≤ ack) := by
  induction l with
  | nil => rfl
  | cons pi rest ih =>
    rw [List.pairwise_cons] at h
    obtain ⟨hhead, htail⟩ := h
    by_cases hp : pi.seq ≤ ack
    · have h1 : Client.dropConfirmed ack (pi :: rest) = Client.dropConfirmed ack rest := by
        simp [Client.dropConfirmed, hp]
      rw [h1, ih htail, List.filter_cons]
      simp [hp]
    · have h1 : Client.dropConfirmed ack (pi :: rest) = pi :: rest := by
        simp [Client.dropConfirmed, hp]
      rw [h1, List.filter_cons]
      rw [if_pos (by simpa using hp)]
      have h2 : rest.filter (fun pi2 => ¬ pi2.seq ≤ ack) = rest := by
        apply List.filter_eq_self.mpr
        intro a ha
        have h3 : pi.seq < a.seq := hhead a ha
        simp only [decide_eq_true_eq, not_le]
        have h4 : ack < pi.seq := not_le.mp hp
        linarith
      rw [h2]

/-- C6: on a snapshot containing the own entry, reconciliation drops exactly
the pending inputs whose sequence is at most the acknowledged sequence; when
the squared distance between the authoritative and the predicted position
exceeds the epsilon the local position is snapped to the authoritative one
and the remaining pending inputs are replayed in order with the
normalize-and-scale rule for the nominal send interval each; otherwise the
position is untouched; the local score always becomes the authoritative one. -/
theorem reconciliation_behavior (st : Client.ReconState) (snap : Client.SnapshotMsg)
    (mid : String) (sp : Server.SnapPlayer ℝ)
    (hj : st.joined = true) (hmy : st.myId = some mid)
    (hfind : snap.players.find? (fun p => p.id = mid) = some sp)
    (hsorted : st.pendingInputs.Pairwise (fun a b => a.seq < b.seq)) :
    (Client.processSnapshotForReconciliation st snap).pendingInputs =
      st.pendingInputs.filter (fun pi => ¬ pi.seq ≤ sp.lastInputSeq) ∧
    (Client.processSnapshotForReconciliation st snap).localState.score = sp.score ∧
    (1 / 10000 < (sp.x - st.localState.x) * (sp.x - st.localState.x) +
        (sp.y - st.localState.y) * (sp.y - st.localState.y) →
      ((Client.processSnapshotForReconciliation st snap).localState.x,
       (Client.processSnapshotForReconciliation st snap).localState.y) =
        Client.replayPending sp.x sp.y
          (st.pendingInputs.filter (fun pi => ¬ pi.seq ≤ sp.lastInputSeq))) ∧
    (¬ (1 / 10000 < (sp.x - st.localState.x) * (sp.x - st.localState.x) +
        (sp.y - st.localState.y) * (sp.y - st.localState.y)) →
      (Client.processSnapshotForReconciliation st snap).localState.x =
        st.localState.x ∧
      (Client.processSnapshotForReconciliation st snap).localState.y =
        st.localState.y) := by
  have hguard : ¬ (st.joined = false ∨ st.myId.isNone) := by
    rw [hj, hmy]
    simp
  have hgetd : st.myId.getD "" = mid := by rw [hmy]; rfl
  have hrec : Client.processSnapshotForReconciliation st snap =
      { st with
        pendingInputs := Client.dropConfirmed sp.lastInputSeq st.pendingInputs
        localState :=
          { st.localState with
            x := (if 1 / 10000 < (sp.x - st.localState.x) * (sp.x - st.localState.x) +
                (sp.y - st.localState.y) * (sp.y - st.localState.y) then
                Client.replayPending sp.x sp.y
                  (Client.dropConfirmed sp.lastInputSeq st.pendingInputs)
              else (st.localState.x, st.localState.y)).1
            y := (if 1 / 10000 < (sp.x - st.localState.x) * (sp.x - st.localState.x) +
                (sp.y - st.localState.y) * (sp.y - st.localState.y) then
                Client.replayPending sp.x sp.y
                  (Client.dropConfirmed sp.lastInputSeq st.pendingInputs)
              else (st.localState.x, st.localState.y)).2
            score := sp.score } } := by
    rw [Client.processSnapshotForReconciliation, if_neg hguard, hgetd, hfind]
  rw [hrec, dropConfirmed_eq_filter _ _ hsorted]
  refine ⟨rfl, rfl, ?_, ?_⟩
  · intro h
    simp only [if_pos h]
  · intro h
    simp only [if_neg h]
    exact ⟨by trivial, by trivial⟩

/-- Closed instance of C6: acknowledged sequence 1 drops the first of two
pending inputs, the converged position is untouched, and the score is
overwritten with the authoritative 3. -/
theorem reconciliation_behavior_witness :
    (Client.processSnapshotForReconciliation Client.demoRecon Client.demoSnap).pendingInputs =
      [⟨2, 0, 1, 0⟩] ∧
    (Client.processSnapshotForReconciliation Client.demoRecon Client.demoSnap).localState.score = 3 ∧
    (Client.processSnapshotForReconciliation Client.demoRecon Client.demoSnap).localState.x = 0 := by
  have hfind : Client.demoSnap.players.find? (fun p => p.id = "me") =
      some ⟨"me", "alice", 0, 0, 3, 1⟩ := by
    apply List.find?_cons_of_pos
    simp
  have h := reconciliation_behavior Client.demoRecon Client.demoSnap "me"
    ⟨"me", "alice", 0, 0, 3, 1⟩ rfl rfl hfind (by decide)
  obtain ⟨h1, h2, -, h4⟩ := h
  have hne : ¬ ((1 : ℝ) / 10000 <
      (((⟨"me", "alice", 0, 0, 3, 1⟩ : Server.SnapPlayer ℝ).x -
          Client.demoRecon.localState.x) *
        (((⟨"me", "alice", 0, 0, 3, 1⟩ : Server.SnapPlayer ℝ)).x -
          Client.demoRecon.localState.x) +
        (((⟨"me", "alice", 0, 0, 3, 1⟩ : Server.SnapPlayer ℝ)).y -
          Client.demoRecon.localState.y) *
        (((⟨"me", "alice", 0, 0, 3, 1⟩ : Server.SnapPlayer ℝ)).y -
          Client.demoRecon.localState.y))) := by
    have hx : (⟨"me", "alice", 0, 0, 3, 1⟩ : Server.SnapPlayer ℝ).x = 0 := rfl
    have hy : (⟨"me", "alice", 0, 0, 3, 1⟩ : Server.SnapPlayer ℝ).y = 0 := rfl
    have hlx : Client.demoRecon.localState.x = 0 := rfl
    have hly : Client.demoRecon.localState.y = 0 := rfl
    rw [hx, hy, hlx, hly]
    norm_num
  refine ⟨?_, h2, (h4 hne).1.trans rfl⟩
  rw [h1]
  decide

/-! ## Interpolation lemmas -/

theorem lerp_zero (a b : ℝ) : Client.lerp a b 0 = a := by
  rw [Client.lerp]
  ring

theorem lerp_one (a b : ℝ) : Client.lerp a b 1 = b := by
  rw [Client.lerp]
  ring

theorem lerp_same (a t : ℝ) : Client.lerp a a t = a := by
  rw [Client.lerp]
  ring

theorem lerp_from_zero (b t : ℝ) : Client.lerp 0 b t = b * t := by
  rw [Client.lerp]
  ring

theorem find?_keyed_map {β : Type} (f : String → β) (ids : List String) (id : String)
    (h : id ∈ ids) :
    ((ids.map (fun i => (i, f i))).find? (fun e => e.1 = id)) = some (id, f id) := by
  induction ids with
  | nil => cases h
  | cons a l ih =>
    by_cases ha : a = id
    · subst ha
      rw [List.map_cons, List.find?_cons_of_pos _ (by simp)]
    · have h2 : id ∈ l := by
        rcases List.mem_cons.mp h with rfl | h3
        · exact absurd rfl ha
        · exact h3
      rw [List.map_cons, List.find?_cons_of_neg _ (by simp [ha]), ih h2]

theorem mapOf_some_mem_keys {ps : List (Server.SnapPlayer ℝ)} {id : String}
    {p : Server.SnapPlayer ℝ} (h : Client.mapOf ps id = some p) :
    id ∈ Client.snapKeys ps := by
  rw [Client.mapOf] at h
  have hne : ps.filter (fun q => decide (q.id = id)) ≠ [] := by
    intro h0
    rw [h0] at h
    simp at h
  obtain ⟨q, hq⟩ := List.exists_mem_of_ne_nil _ hne
  have hq2 := List.mem_filter.mp hq
  have hid : q.id = id := by simpa using hq2.2
  rw [Client.snapKeys, List.mem_dedup]
  rw [← hid]
  exact List.mem_map_of_mem _ hq2.1

theorem mapOf_none_not_mem {ps : List (Server.SnapPlayer ℝ)} {id : String}
    (h : Client.mapOf ps id = none) : id ∉ Client.snapKeys ps := by
  intro hmem
  rw [Client.snapKeys, List.mem_dedup] at hmem
  obtain ⟨q, hq, hid⟩ := List.mem_map.mp hmem
  rw [Client.mapOf] at h
  rw [List.getLast?_eq_none_iff] at h
  have : q ∈ ps.filter (fun r => decide (r.id = id)) :=
    List.mem_filter.mpr ⟨hq, by simp [hid]⟩
  rw [h] at this
  cases this

theorem mem_allIds_left {a b : Client.SnapshotMsg} {id : String}
    (h : id ∈ Client.snapKeys a.players) : id ∈ Client.allIds a b :=
  List.mem_append_left _ h

theorem mem_allIds_right {a b : Client.SnapshotMsg} {id : String}
    (h : id ∈ Client.snapKeys b.players) : id ∈ Client.allIds a b := by
  by_cases ha : id ∈ Client.snapKeys a.players
  · exact List.mem_append_left _ ha
  · exact List.mem_append_right _ (List.mem_filter.mpr ⟨h, by simpa using ha⟩)

theorem getRemote_of_bracket {buf : List Client.SnapshotMsg} {rt : ℤ}
    {ab : Client.SnapshotMsg × Client.SnapshotMsg}
    (h : Client.findBracket buf rt = some ab) :
    Client.getRemoteEntityPositions buf rt =
      some ((Client.allIds ab.1 ab.2).map (fun id =>
        (id, Client.interpEntity ab.1 ab.2 (Client.interpT ab.1 ab.2 rt) id))) := by
  cases buf with
  | nil => simp [Client.findBracket] at h
  | cons f m =>
    simp only [Client.getRemoteEntityPositions]
    rw [h]

theorem getRemote_of_no_bracket {buf : List Client.SnapshotMsg} {rt : ℤ}
    {last : Client.SnapshotMsg}
    (h : Client.findBracket buf rt = none) (hl : buf.getLast? = some last) :
    Client.getRemoteEntityPositions buf rt =
      some (Client.lastKnownPositions last) := by
  cases buf with
  | nil => simp at hl
  | cons f m =>
    simp only [Client.getRemoteEntityPositions]
    rw [h]
    have h2 : (f :: m).getLast (by simp) = last := by
      have h3 := List.getLast?_eq_getLast (f :: m) (by simp)
      rw [h3] at hl
      exact Option.some.inj hl
    rw [h2]

theorem interpEntity_a_some {a b : Client.SnapshotMsg} {id : String}
    {p : Server.SnapPlayer ℝ} (ha : Client.mapOf a.players id = some p) (t : ℝ) :
    (Client.interpEntity a b t id).x =
      Client.lerp p.x ((Client.mapOf b.players id).getD p).x t ∧
    (Client.interpEntity a b t id).y =
      Client.lerp p.y ((Client.mapOf b.players id).getD p).y t := by
  rw [Client.interpEntity, ha]
  exact ⟨rfl, rfl⟩

theorem interpEntity_b_some_t1 {a b : Client.SnapshotMsg} {id : String}
    {p : Server.SnapPlayer ℝ} (hb : Client.mapOf b.players id = some p) :
    (Client.interpEntity a b 1 id).x = p.x ∧
    (Client.interpEntity a b 1 id).y = p.y := by
  rw [Client.interpEntity, hb]
  exact ⟨lerp_one _ _, lerp_one _ _⟩

theorem interpEntity_a_only {a b : Client.SnapshotMsg} {id : String}
    {p : Server.SnapPlayer ℝ} (ha : Client.mapOf a.players id = some p)
    (hb : Client.mapOf b.players id = none) (t : ℝ) :
    (Client.interpEntity a b t id).x = p.x ∧
    (Client.interpEntity a b t id).y = p.y := by
  obtain ⟨hx, hy⟩ := interpEntity_a_some (b := b) ha t
  rw [hb] at hx hy
  rw [hx, hy]
  exact ⟨lerp_same _ _, lerp_same _ _⟩

theorem interpEntity_b_only {a b : Client.SnapshotMsg} {id : String}
    {p : Server.SnapPlayer ℝ} (ha : Client.mapOf a.players id = none)
    (hb : Client.mapOf b.players id = some p) (t : ℝ) :
    (Client.interpEntity a b t id).x = p.x * t ∧
    (Client.interpEntity a b t id).y = p.y * t := by
  rw [Client.interpEntity, ha, hb]
  exact ⟨lerp_from_zero _ _, lerp_from_zero _ _⟩

/-- The scan for a bracketing pair, evaluated at the server time of a buffered
snapshot, finds a consecutive pair with strictly increasing times whose left
or right member is that snapshot. -/
theorem findBracket_mem_time :
    ∀ (buf : List Client.SnapshotMsg),
      buf.Pairwise (fun s1 s2 => s1.serverTime < s2.serverTime) →
      2 ≤ buf.length → ∀ s ∈ buf,
      ∃ a b, Client.findBracket buf s.serverTime = some (a, b) ∧
        a.serverTime < b.serverTime ∧ (s = a ∨ s = b) := by
  intro buf
  induction buf with
  | nil =>
    intro _ hlen
    simp at hlen
  | cons a tail ih =>
    intro hsort hlen s hs
    cases tail with
    | nil => simp at hlen
    | cons b rest =>
      have hab : a.serverTime < b.serverTime :=
        (List.pairwise_cons.mp hsort).1 b (by simp)
      have htail := (List.pairwise_cons.mp hsort).2
      rcases List.mem_cons.mp hs with rfl | hs2
      · refine ⟨s, b, ?_, hab, Or.inl rfl⟩
        simp only [Client.findBracket]
        rw [if_pos ⟨le_refl _, le_of_lt hab⟩]
      · rcases List.mem_cons.mp hs2 with rfl | hs3
        · refine ⟨a, s, ?_, hab, Or.inr rfl⟩
          simp only [Client.findBracket]
          rw [if_pos ⟨le_of_lt hab, le_refl _⟩]
        · have hbs : b.serverTime < s.serverTime :=
            (List.pairwise_cons.mp htail).1 s hs3
          have hlen2 : 2 ≤ (b :: rest).length := by
            have := List.length_pos.mpr (List.ne_nil_of_mem hs3)
            simp only [List.length_cons]
            omega
          obtain ⟨a2, b2, hfb, hlt, hor⟩ := ih htail hlen2 s (List.mem_cons_of_mem _ hs3)
          refine ⟨a2, b2, ?_, hlt, hor⟩
          simp only [Client.findBracket]
          rw [if_neg (fun hcond => absurd hcond.2 (not_le.mpr hbs))]
          exact hfb

/-! ## Claim C7: interpolation endpoints -/

/-- C7 (amended): for a strictly time-ordered buffer, rendering exactly at the
server time of a buffered snapshot reproduces that snapshot's position for
every entity it contains (so at `t0` the result is `p0` and at `t1` it is
`p1`); when no consecutive pair brackets the render time, the result is the
position list of the LAST buffered snapshot — which is the nearest snapshot
when the render time is too new, but not when it is older than the whole
buffer. -/
theorem interpolation_endpoint_exact (buf : List Client.SnapshotMsg)
    (hsort : buf.Pairwise (fun s1 s2 => s1.serverTime < s2.serverTime))
    (hlen : 2 ≤ buf.length) :
    (∀ s ∈ buf, ∀ id p, Client.mapOf s.players id = some p →
      ∃ out, Client.getRemoteEntityPositions buf s.serverTime = some out ∧
        ∃ r, out.find? (fun e => e.1 = id) = some (id, r) ∧ r.x = p.x ∧ r.y = p.y) ∧
    (∀ rt last, Client.findBracket buf rt = none → buf.getLast? = some last →
      Client.getRemoteEntityPositions buf rt =
        some (Client.lastKnownPositions last)) := by
  constructor
  · intro s hs id p hlook
    obtain ⟨a, b, hfb, hab, hor⟩ := findBracket_mem_time buf hsort hlen s hs
    refine ⟨_, getRemote_of_bracket hfb, ?_⟩
    rcases hor with rfl | rfl
    · have hmem : id ∈ Client.allIds s b := mem_allIds_left (mapOf_some_mem_keys hlook)
      rw [find?_keyed_map _ _ _ hmem]
      have ht : Client.interpT s b s.serverTime = 0 := by
        rw [Client.interpT]
        simp
      refine ⟨_, rfl, ?_, ?_⟩
      · rw [ht]
        exact ((interpEntity_a_some hlook 0).1).trans (lerp_zero _ _)
      · rw [ht]
        exact ((interpEntity_a_some hlook 0).2).trans (lerp_zero _ _)
    · have hmem : id ∈ Client.allIds a s := mem_allIds_right (mapOf_some_mem_keys hlook)
      rw [find?_keyed_map _ _ _ hmem]
      have ht : Client.interpT a s s.serverTime = 1 := by
        rw [Client.interpT]
        rw [max_eq_right (by omega : (1 : ℤ) ≤ s.serverTime - a.serverTime)]
        exact div_self (by rw [Int.cast_ne_zero]; omega)
      refine ⟨_, rfl, ?_, ?_⟩
      · rw [ht]
        exact (interpEntity_b_some_t1 hlook).1
      · rw [ht]
        exact (interpEntity_b_some_t1 hlook).2
  · intro rt last hfb hl
    exact getRemote_of_no_bracket hfb hl

/-- Closed instance of C7: rendering at the first buffered time 100
reproduces the entity position `(0, 0)` stored there. -/
theorem interpolation_endpoint_exact_witness :
    ∃ out, Client.getRemoteEntityPositions Client.demoBuf 100 = some out ∧
      ∃ r, out.find? (fun e => e.1 = "e") = some ("e", r) ∧
        r.x = (0 : ℝ) ∧ r.y = (0 : ℝ) := by
  have hsort : Client.demoBuf.Pairwise (fun s1 s2 => s1.serverTime < s2.serverTime) := by
    rw [Client.demoBuf]
    simp [List.pairwise_cons]
  have hmem : (⟨1, 100, [⟨"e", "n", 0, 0, 0, 0⟩], []⟩ : Client.SnapshotMsg) ∈
      Client.demoBuf := by
    rw [Client.demoBuf]
    exact List.mem_cons_self _ _
  have hlen : 2 ≤ Client.demoBuf.length := by
    rw [Client.demoBuf]
    simp
  have hlook : Client.mapOf
      ((⟨1, 100, [⟨"e", "n", 0, 0, 0, 0⟩], []⟩ : Client.SnapshotMsg)).players "e" =
      some ⟨"e", "n", 0, 0, 0, 0⟩ := rfl
  exact (interpolation_endpoint_exact Client.demoBuf hsort hlen).1 _ hmem "e" _ hlook

/-- Counterexample to C7 as stated: for a render time of 50, older than the
whole buffer (snapshots at 100 and 200), the code renders the LAST snapshot's
position `(10, 10)` even though the nearest snapshot is the first one, whose
stored position is `(0, 0)`. -/
theorem interpolation_too_old_not_nearest_cex :
    ((Client.getRemoteEntityPositions Client.demoBuf 50).getD []).map
        (fun e => (e.1, e.2.x, e.2.y)) = [("e", (10 : ℝ), 10)] ∧
    (Client.demoBuf.head?.bind (fun s => Client.mapOf s.players "e")).map
        (fun p => (p.x, p.y)) = some ((0 : ℝ), 0) ∧
    (100 : ℤ) - 50 < 200 - 50 ∧
    ((10 : ℝ), (10 : ℝ)) ≠ ((0 : ℝ), 0) := by
  have hfb : Client.findBracket Client.demoBuf 50 = none := rfl
  have hlast : Client.demoBuf.getLast? =
      some ⟨2, 200, [⟨"e", "n", 10, 10, 0, 0⟩], []⟩ := rfl
  have h1 := getRemote_of_no_bracket hfb hlast
  refine ⟨?_, rfl, by norm_num, by simp [Prod.ext_iff]⟩
  rw [h1]
  rfl

/-! ## Claim C8: one-sided entities -/

/-- C8 (amended): when interpolating between two bracketing snapshots, an
entity present only in the EARLIER snapshot is held at its known position
(for every fraction); but an entity present only in the LATER snapshot is not
held — it is interpolated from the origin `(0, 0)` toward its known position
by the current fraction. -/
theorem interpolation_one_sided_entities (buf : List Client.SnapshotMsg) (rt : ℤ)
    (a b : Client.SnapshotMsg) (hfb : Client.findBracket buf rt = some (a, b))
    (id : String) (p : Server.SnapPlayer ℝ) :
    (Client.mapOf a.players id = some p → Client.mapOf b.players id = none →
      ∃ out, Client.getRemoteEntityPositions buf rt = some out ∧
        ∃ r, out.find? (fun e => e.1 = id) = some (id, r) ∧
          r.x = p.x ∧ r.y = p.y) ∧
    (Client.mapOf a.players id = none → Client.mapOf b.players id = some p →
      ∃ out, Client.getRemoteEntityPositions buf rt = some out ∧
        ∃ r, out.find? (fun e => e.1 = id) = some (id, r) ∧
          r.x = p.x * Client.interpT a b rt ∧ r.y = p.y * Client.interpT a b rt) := by
  constructor
  · intro ha hb
    refine ⟨_, getRemote_of_bracket hfb, ?_⟩
    have hmem : id ∈ Client.allIds a b := mem_allIds_left (mapOf_some_mem_keys ha)
    rw [find?_keyed_map _ _ _ hmem]
    exact ⟨_, rfl, (interpEntity_a_only ha hb _).1, (interpEntity_a_only ha hb _).2⟩
  · intro ha hb
    refine ⟨_, getRemote_of_bracket hfb, ?_⟩
    have hmem : id ∈ Client.allIds a b := mem_allIds_right (mapOf_some_mem_keys hb)
    rw [find?_keyed_map _ _ _ hmem]
    exact ⟨_, rfl, (interpEntity_b_only ha hb _).1, (interpEntity_b_only ha hb _).2⟩

/-- Closed instance of C8 (amended): halfway between the snapshots, the
entity `b` that exists only in the later snapshot at `(10, 10)` is rendered
at `(5, 5)`, i.e. at its position scaled by the fraction one half. -/
theorem interpolation_one_sided_entities_witness :
    ∃ out, Client.getRemoteEntityPositions Client.demoBufLateOnly 150 = some out ∧
      ∃ r, out.find? (fun e => e.1 = "b") = some ("b", r) ∧
        r.x = (5 : ℝ) ∧ r.y = (5 : ℝ) := by
  have hfb : Client.findBracket Client.demoBufLateOnly 150 =
      some (⟨1, 100, [⟨"a", "n", 3, 4, 0, 0⟩], []⟩,
        ⟨2, 200, [⟨"a", "n", 3, 4, 0, 0⟩, ⟨"b", "m", 10, 10, 0, 0⟩], []⟩) := rfl
  have h := (interpolation_one_sided_entities Client.demoBufLateOnly 150 _ _ hfb
    "b" ⟨"b", "m", 10, 10, 0, 0⟩).2 rfl rfl
  obtain ⟨out, hout, r, hr, hx, hy⟩ := h
  have ht : Client.interpT (⟨1, 100, [⟨"a", "n", 3, 4, 0, 0⟩], []⟩ : Client.SnapshotMsg)
      (⟨2, 200, [⟨"a", "n", 3, 4, 0, 0⟩, ⟨"b", "m", 10, 10, 0, 0⟩], []⟩ :
        Client.SnapshotMsg) 150 = 1 / 2 := by
    rw [Client.interpT]
    rw [show ((150 : ℤ) - 100) = 50 from rfl]
    rw [show (max 1 ((200 : ℤ) - 100)) = 100 from rfl]
    norm_num
  rw [ht] at hx hy
  refine ⟨out, hout, r, hr, ?_, ?_⟩
  · rw [hx]
    norm_num
  · rw [hy]
    norm_num

/-- Counterexample to C8 as stated: the entity `b`, present only in the later
bracketing snapshot at `(10, 10)`, is rendered at `(5, 5)` for the midway
fraction — motion is invented from the origin instead of holding the known
position `(10, 10)`. -/
theorem interpolation_invented_motion_cex :
    (∃ r, ((Client.getRemoteEntityPositions Client.demoBufLateOnly 150).getD []).find?
        (fun e => e.1 = "b") = some ("b", r) ∧ r.x = (5 : ℝ) ∧ r.y = (5 : ℝ)) ∧
    Client.mapOf ((⟨2, 200, [⟨"a", "n", 3, 4, 0, 0⟩, ⟨"b", "m", 10, 10, 0, 0⟩], []⟩ :
        Client.SnapshotMsg)).players "b" = some ⟨"b", "m", 10, 10, 0, 0⟩ ∧
    ((5 : ℝ) ≠ 10) := by
  have hfb : Client.findBracket Client.demoBufLateOnly 150 =
      some (⟨1, 100, [⟨"a", "n", 3, 4, 0, 0⟩], []⟩,
        ⟨2, 200, [⟨"a", "n", 3, 4, 0, 0⟩, ⟨"b", "m", 10, 10, 0, 0⟩], []⟩) := rfl
  have hout := getRemote_of_bracket hfb
  have ht : Client.interpT (⟨1, 100, [⟨"a", "n", 3, 4, 0, 0⟩], []⟩ : Client.SnapshotMsg)
      (⟨2, 200, [⟨"a", "n", 3, 4, 0, 0⟩, ⟨"b", "m", 10, 10, 0, 0⟩], []⟩ :
        Client.SnapshotMsg) 150 = 1 / 2 := by
    rw [Client.interpT]
    rw [show ((150 : ℤ) - 100) = 50 from rfl]
    rw [show (max 1 ((200 : ℤ) - 100)) = 100 from rfl]
    norm_num
  refine ⟨?_, rfl, by norm_num⟩
  rw [hout]
  have hmem : "b" ∈ Client.allIds
      (⟨1, 100, [⟨"a", "n", 3, 4, 0, 0⟩], []⟩ : Client.SnapshotMsg)
      (⟨2, 200, [⟨"a", "n", 3, 4, 0, 0⟩, ⟨"b", "m", 10, 10, 0, 0⟩], []⟩ :
        Client.SnapshotMsg) := by
    apply mem_allIds_right
    rw [Client.snapKeys]
    simp
  rw [Option.getD_some, find?_keyed_map _ _ _ hmem]
  have hxy := interpEntity_b_only
    (show Client.mapOf ((⟨1, 100, [⟨"a", "n", 3, 4, 0, 0⟩], []⟩ :
      Client.SnapshotMsg)).players "b" = none from rfl)
    (show Client.mapOf ((⟨2, 200, [⟨"a", "n", 3, 4, 0, 0⟩, ⟨"b", "m", 10, 10, 0, 0⟩],
      []⟩ : Client.SnapshotMsg)).players "b" =
      some ⟨"b", "m", 10, 10, 0, 0⟩ from rfl)
    (Client.interpT (⟨1, 100, [⟨"a", "n", 3, 4, 0, 0⟩], []⟩ : Client.SnapshotMsg)
      (⟨2, 200, [⟨"a", "n", 3, 4, 0, 0⟩, ⟨"b", "m", 10, 10, 0, 0⟩], []⟩ :
        Client.SnapshotMsg) 150)
  refine ⟨_, rfl, ?_, ?_⟩
  · rw [hxy.1, ht]
    norm_num
  · rw [hxy.2, ht]
    norm_num

/-! ## Delay queue lemmas -/

theorem qle_trans : ∀ (x y z : Server.QEntry),
    Server.qle x y = true → Server.qle y z = true → Server.qle x z = true := by
  intro x y z h1 h2
  simp only [Server.qle, decide_eq_true_eq] at h1 h2 ⊢
  omega

theorem qle_total : ∀ (x y : Server.QEntry),
    (Server.qle x y || Server.qle y x) = true := by
  intro x y
  simp only [Server.qle, Bool.or_eq_true, decide_eq_true_eq]
  omega

theorem pair_sublist_antisymm {α : Type} {a b : α} :
    ∀ {l : List α}, l.Nodup → [a, b].Sublist l → [b, a].Sublist l → a = b := by
  intro l
  induction l with
  | nil =>
    intro _ h1 _
    cases h1
  | cons x t ih =>
    intro hnd h1 h2
    have hndt := (List.nodup_cons.mp hnd).2
    have hxnot := (List.nodup_cons.mp hnd).1
    rcases List.sublist_cons_iff.mp h1 with h1t | ⟨r1, he1, hr1⟩
    · rcases List.sublist_cons_iff.mp h2 with h2t | ⟨r2, he2, hr2⟩
      · exact ih hndt h1t h2t
      · -- b = x and [a] <+ t; but also [a,b] <+ t puts b in t, contradicting x ∉ t
        have hb : b = x := (List.cons.injEq _ _ _ _).mp he2 |>.1
        have hbmem : b ∈ t := (h1t.subset) (by simp)
        rw [hb] at hbmem
        exact absurd hbmem hxnot
    · rcases List.sublist_cons_iff.mp h2 with h2t | ⟨r2, he2, hr2⟩
      · have ha : a = x := (List.cons.injEq _ _ _ _).mp he1 |>.1
        have hamem : a ∈ t := (h2t.subset) (by simp)
        rw [ha] at hamem
        exact absurd hamem hxnot
      · have ha : a = x := (List.cons.injEq _ _ _ _).mp he1 |>.1
        have hb : b = x := (List.cons.injEq _ _ _ _).mp he2 |>.1
        rw [ha, hb]

theorem mem_mem_ne_sublist {α : Type} {a b : α} :
    ∀ {l : List α}, a ∈ l → b ∈ l → a ≠ b →
      [a, b].Sublist l ∨ [b, a].Sublist l := by
  intro l
  induction l with
  | nil =>
    intro ha
    cases ha
  | cons x t ih =>
    intro ha hb hne
    rcases List.mem_cons.mp ha with rfl | hat
    · have hbt : b ∈ t := by
        rcases List.mem_cons.mp hb with rfl | h
        · exact absurd rfl hne
        · exact h
      left
      exact (List.cons_sublist_cons.mpr (List.singleton_sublist.mpr hbt))
    · rcases List.mem_cons.mp hb with rfl | hbt
      · right
        exact (List.cons_sublist_cons.mpr (List.singleton_sublist.mpr hat))
      · rcases ih hat hbt hne with h | h
        · exact Or.inl (h.cons _)
        · exact Or.inr (h.cons _)

theorem lexSorted_tieOrdered {q : List Server.QEntry} (h : Server.LexSorted q) :
    Server.TieOrdered q := by
  rw [Server.LexSorted] at h
  rw [Server.TieOrdered]
  refine h.imp ?_
  intro a b hab heq
  rcases hab with hlt | ⟨_, hidx⟩
  · rw [heq] at hlt
    exact absurd hlt (lt_irrefl _)
  · exact hidx

/-- Stability of the sort call: a stably sorted (by `deliverAt`) version of a
queue whose ties are in enqueue order, with distinct tags, is lexicographically
sorted by `(deliverAt, idx)`. -/
theorem mergeSort_lexSorted {l : List Server.QEntry}
    (hTie : Server.TieOrdered l) (hNd : (l.map Server.QEntry.idx).Nodup) :
    Server.LexSorted (l.mergeSort Server.qle) := by
  have hNdl : l.Nodup := hNd.of_map
  have hperm := List.mergeSort_perm l Server.qle
  have hout_nd : (l.mergeSort Server.qle).Nodup := hperm.symm.nodup hNdl
  have hsorted := List.sorted_mergeSort qle_trans qle_total l
  rw [Server.LexSorted, List.pairwise_iff_forall_sublist]
  intro a b hsub
  have hle : Server.qle a b = true := List.pairwise_iff_forall_sublist.mp hsorted hsub
  simp only [Server.qle, decide_eq_true_eq] at hle
  rcases lt_or_eq_of_le hle with hlt | heq
  · exact Or.inl hlt
  · refine Or.inr ⟨heq, ?_⟩
    have hamem : a ∈ l := hperm.subset (hsub.subset (by simp))
    have hbmem : b ∈ l := hperm.subset (hsub.subset (by simp))
    have hne : a ≠ b := List.pairwise_iff_forall_sublist.mp hout_nd hsub
    rcases mem_mem_ne_sublist hamem hbmem hne with hab | hba
    · exact List.pairwise_iff_forall_sublist.mp hTie hab heq
    · exfalso
      have hba_out : [b, a].Sublist (l.mergeSort Server.qle) := by
        apply List.sublist_mergeSort qle_trans qle_total ?_ hba
        simp only [List.pairwise_cons, List.mem_singleton]
        refine ⟨fun y hy => ?_, by simp⟩
        rw [hy]
        simp only [Server.qle, decide_eq_true_eq]
        omega
      exact hne (pair_sublist_antisymm hout_nd hsub hba_out)

theorem lexLe_deliverAt {a b : Server.QEntry} (h : Server.lexLe a b) :
    a.deliverAt ≤ b.deliverAt := by
  rcases h with h | ⟨h, -⟩
  · exact le_of_lt h
  · exact le_of_eq h

/-- The drain loop on a sorted queue delivers exactly the ready entries and
keeps exactly the rest, in order. -/
theorem drainReady_split {q : List Server.QEntry} (now : ℤ)
    (h : Server.LexSorted q) :
    (Server.drainReady q now).1 = q.filter (fun e => decide (e.deliverAt ≤ now)) ∧
    (Server.drainReady q now).2 = q.filter (fun e => decide (¬ e.deliverAt ≤ now)) := by
  induction q with
  | nil => exact ⟨rfl, rfl⟩
  | cons m rest ih =>
    have hhead := (List.pairwise_cons.mp h).1
    have hrest : Server.LexSorted rest := (List.pairwise_cons.mp h).2
    by_cases hm : m.deliverAt ≤ now
    · have h1 : Server.drainReady (m :: rest) now =
          (m :: (Server.drainReady rest now).1, (Server.drainReady rest now).2) := by
        simp [Server.drainReady, hm]
      obtain ⟨ih1, ih2⟩ := ih hrest
      rw [h1]
      constructor
      · simp [List.filter_cons, hm, ih1]
      · simp [List.filter_cons, hm, ih2]
    · have h1 : Server.drainReady (m :: rest) now = ([], m :: rest) := by
        simp [Server.drainReady, hm]
      rw [h1]
      have hlater : ∀ e ∈ m :: rest, ¬ e.deliverAt ≤ now := by
        intro e he
        rcases List.mem_cons.mp he with rfl | het
        · exact hm
        · have hge : m.deliverAt ≤ e.deliverAt := lexLe_deliverAt (hhead e het)
          omega
      constructor
      · symm
        rw [List.filter_eq_nil_iff]
        intro e he
        simpa using hlater e he
      · symm
        rw [List.filter_eq_self]
        intro e he
        simpa using hlater e he

theorem drainReady_remaining_sublist (q : List Server.QEntry) (now : ℤ) :
    (Server.drainReady q now).2.Sublist q := by
  induction q with
  | nil => simp [Server.drainReady]
  | cons m rest ih =>
    by_cases hm : m.deliverAt ≤ now
    · have h1 : (Server.drainReady (m :: rest) now).2 =
          (Server.drainReady rest now).2 := by
        simp [Server.drainReady, hm]
      rw [h1]
      exact ih.cons _
    · have h1 : (Server.drainReady (m :: rest) now).2 = m :: rest := by
        simp [Server.drainReady, hm]
      rw [h1]

theorem tieOrdered_append_fresh {q : List Server.QEntry} {e : Server.QEntry}
    (hT : Server.TieOrdered q) (hb : ∀ x ∈ q, x.idx < e.idx) :
    Server.TieOrdered (q ++ [e]) := by
  rw [Server.TieOrdered, List.pairwise_append]
  refine ⟨hT, by simp, ?_⟩
  intro a ha b hbmem
  rcases List.mem_singleton.mp hbmem with rfl
  intro _
  exact hb a ha

theorem idx_nodup_append_fresh {q : List Server.QEntry} {e : Server.QEntry}
    (hNd : (q.map Server.QEntry.idx).Nodup) (hb : ∀ x ∈ q, x.idx < e.idx) :
    ((q ++ [e]).map Server.QEntry.idx).Nodup := by
  rw [List.map_append, List.map_singleton, List.nodup_append]
  refine ⟨hNd, by simp, ?_⟩
  intro a ha hmem
  have ha2 : a = e.idx := List.mem_singleton.mp hmem
  obtain ⟨x, hx, hxeq⟩ := List.mem_map.mp ha
  rw [ha2] at hxeq
  exact absurd hxeq (ne_of_lt (hb x hx))

theorem mergeSort_idx_nodup {l : List Server.QEntry}
    (h : (l.map Server.QEntry.idx).Nodup) :
    ((l.mergeSort Server.qle).map Server.QEntry.idx).Nodup :=
  ((List.mergeSort_perm l Server.qle).map Server.QEntry.idx).symm.nodup h

theorem mergeSort_mem_of_mem {l : List Server.QEntry} {e : Server.QEntry}
    (h : e ∈ l.mergeSort Server.qle) : e ∈ l :=
  (List.mergeSort_perm l Server.qle).subset h

/-- Every event callback preserves the queue invariant. -/
theorem qStep_inv {s : Server.Queues} (h : Server.QInv s) (ev : Server.QEv) :
    Server.QInv (Server.qStep s ev) := by
  obtain ⟨hin, hout, hbin, hbout, hndin, hndout⟩ := h
  cases ev with
  | msgArrive now jitter dest payload =>
    have hbin2 : ∀ x ∈ s.incomingQueue,
        x.idx < (Server.deliverTime now jitter, s.nextIdx, dest, payload).2.1 := hbin
    refine ⟨?_, ?_, ?_, ?_, ?_, ?_⟩
    · apply mergeSort_lexSorted
      · exact tieOrdered_append_fresh (lexSorted_tieOrdered hin) hbin
      · exact idx_nodup_append_fresh hndin hbin
    · apply lexSorted_tieOrdered
      exact mergeSort_lexSorted hout hndout
    · intro e he
      have he2 := mergeSort_mem_of_mem he
      rcases List.mem_append.mp he2 with h2 | h2
      · have := hbin e h2
        simp only [Server.qStep, Server.queueIncoming, Server.sortQueues]
        omega
      · rcases List.mem_singleton.mp h2 with rfl
        simp [Server.qStep, Server.queueIncoming, Server.sortQueues]
    · intro e he
      have he2 := mergeSort_mem_of_mem he
      have := hbout e he2
      simp only [Server.qStep, Server.queueIncoming, Server.sortQueues]
      omega
    · exact mergeSort_idx_nodup (idx_nodup_append_fresh hndin hbin)
    · exact mergeSort_idx_nodup hndout
  | sendLatency now jitter dest payload =>
    refine ⟨hin, ?_, ?_, ?_, hndin, ?_⟩
    · exact tieOrdered_append_fresh hout hbout
    · intro e he
      have := hbin e he
      simp only [Server.qStep, Server.sendWithLatency]
      omega
    · intro e he
      rcases List.mem_append.mp he with h2 | h2
      · have := hbout e h2
        simp only [Server.qStep, Server.sendWithLatency]
        omega
      · rcases List.mem_singleton.mp h2 with rfl
        simp [Server.qStep, Server.sendWithLatency]
    · exact idx_nodup_append_fresh hndout hbout
  | sortTick =>
    refine ⟨?_, ?_, ?_, ?_, ?_, ?_⟩
    · exact mergeSort_lexSorted (lexSorted_tieOrdered hin) hndin
    · exact lexSorted_tieOrdered (mergeSort_lexSorted hout hndout)
    · intro e he
      exact hbin e (mergeSort_mem_of_mem he)
    · intro e he
      exact hbout e (mergeSort_mem_of_mem he)
    · exact mergeSort_idx_nodup hndin
    · exact mergeSort_idx_nodup hndout
  | flushIncoming now =>
    have hsub := drainReady_remaining_sublist s.incomingQueue now
    refine ⟨List.Pairwise.sublist hsub hin, hout, ?_, hbout, ?_, hndout⟩
    · intro e he
      exact hbin e (hsub.subset he)
    · exact (hsub.map Server.QEntry.idx).nodup hndin
  | flushOutgoing now =>
    have hsub := drainReady_remaining_sublist s.outgoingQueue now
    refine ⟨hin, List.Pairwise.sublist hsub hout, hbin, ?_, hndin, ?_⟩
    · intro e he
      exact hbout e (hsub.subset he)
    · exact (hsub.map Server.QEntry.idx).nodup hndout

theorem qInv_init : Server.QInv Server.qInit := by
  refine ⟨?_, ?_, ?_, ?_, ?_, ?_⟩ <;>
    simp [Server.qInit, Server.QInv, Server.LexSorted, Server.TieOrdered]

theorem qRun_inv (evs : List Server.QEv) : Server.QInv (Server.qRun evs) := by
  rw [Server.qRun]
  have hgen : ∀ (l : List Server.QEv) (s : Server.Queues), Server.QInv s →
      Server.QInv (l.foldl Server.qStep s) := by
    intro l
    induction l with
    | nil => intro s hs; exact hs
    | cons ev l ih =>
      intro s hs
      rw [List.foldl_cons]
      exact ih _ (qStep_inv hs ev)
  exact hgen evs _ qInv_init

/-! ## Claim C1: delay queue drain order -/

/-- C1 (amended): the incoming queue is sorted by `(deliverAt, enqueue order)`
at every reachable state (it is re-sorted inside the same callback as every
enqueue), and the outgoing queue is so sorted immediately after any
`sortQueues` run; the drain loop on a sorted queue delivers exactly the
entries with `deliverAt <= now`, in non-decreasing `deliverAt` order with
ties in enqueue order, and keeps exactly the rest.  (Between an outgoing
enqueue and the next sort, an outgoing drain lacks this guarantee — see the
counterexample.) -/
theorem delay_queue_drain_order :
    (∀ evs, Server.LexSorted (Server.qRun evs).incomingQueue) ∧
    (∀ evs, Server.LexSorted
      ((Server.qStep (Server.qRun evs) Server.QEv.sortTick).outgoingQueue)) ∧
    (∀ (q : List Server.QEntry) (now : ℤ), Server.LexSorted q →
      (Server.drainReady q now).1 = q.filter (fun e => decide (e.deliverAt ≤ now)) ∧
      (Server.drainReady q now).2 =
        q.filter (fun e => decide (¬ e.deliverAt ≤ now)) ∧
      Server.LexSorted (Server.drainReady q now).1) := by
  refine ⟨?_, ?_, ?_⟩
  · intro evs
    exact (qRun_inv evs).1
  · intro evs
    obtain ⟨-, hout, -, -, -, hndout⟩ := qRun_inv evs
    exact mergeSort_lexSorted hout hndout
  · intro q now hq
    obtain ⟨h1, h2⟩ := drainReady_split now hq
    refine ⟨h1, h2, ?_⟩
    rw [h1]
    exact hq.filter _

/-- Closed instance of C1: draining a sorted queue at `now = 6` delivers
exactly the entry due at 5 and keeps the one due at 7. -/
theorem delay_queue_drain_order_witness :
    (Server.drainReady [⟨5, 0, "c", "a"⟩, ⟨7, 1, "c", "b"⟩] 6).1 =
      [⟨5, 0, "c", "a"⟩] ∧
    (Server.drainReady [⟨5, 0, "c", "a"⟩, ⟨7, 1, "c", "b"⟩] 6).2 =
      [⟨7, 1, "c", "b"⟩] := by
  obtain ⟨h1, h2, -⟩ := delay_queue_drain_order.2.2
    [⟨5, 0, "c", "a"⟩, ⟨7, 1, "c", "b"⟩] 6
    (by decide)
  constructor
  · rw [h1]
    decide
  · rw [h2]
    decide

/-- Counterexample to C1 as stated: two outgoing sends whose jitters invert
the delivery times (`deliverAt` 209 enqueued before 195, both reachable with
jitter in `[-10, 9]`), drained by the 10 ms flush before any `sortQueues`
runs, are delivered in DECREASING `deliverAt` order. -/
theorem delay_queue_unsorted_outgoing_cex :
    ((Server.drainReady (Server.qRun
        [Server.QEv.sendLatency 0 9 "c" "a",
         Server.QEv.sendLatency 5 (-10) "c" "b"]).outgoingQueue 300).1.map
      Server.QEntry.deliverAt = [209, 195]) ∧
    ¬ ((209 : ℤ) ≤ 195) := by
  constructor
  · decide
  · decide

/-! ## Score invariant lemmas -/

theorem pickCount_append (a b : List (String × String)) (id : String) :
    Server.pickCount (a ++ b) id = Server.pickCount a id + Server.pickCount b id := by
  rw [Server.pickCount, Server.pickCount, Server.pickCount, List.filter_append,
    List.length_append]

theorem pickCount_eq_zero {picks : List (String × String)} {used : List String}
    {id : String} (h : ∀ pk ∈ picks, pk.2 ∈ used) (hid : id ∉ used) :
    Server.pickCount picks id = 0 := by
  rw [Server.pickCount, List.length_eq_zero, List.filter_eq_nil_iff]
  intro pk hpk
  simp only [decide_eq_true_eq]
  intro he
  exact hid (he ▸ h pk hpk)

theorem applyInput_id_score {α : Type} (p : Server.Player α) (m : Server.InputMsg)
    (now : ℤ) :
    (Server.applyInput p m now).id = p.id ∧
    (Server.applyInput p m now).score = p.score := by
  by_cases h : numOr0 m.seq ≤ p.lastInput.seq <;> simp [Server.applyInput, h]

theorem scoreInv_of_players_eq {s s2 : Server.ServerState ℝ}
    {picks : List (String × String)} {used : List String}
    (h : Server.ScoreInv s picks used) (he : s2.players = s.players) :
    Server.ScoreInv s2 picks used := by
  rw [Server.ScoreInv, he]
  exact h

theorem scoreInv_map {s : Server.ServerState ℝ} {picks : List (String × String)}
    {used : List String} (g : Server.Player ℝ → Server.Player ℝ)
    (hg : ∀ p, (g p).id = p.id ∧ (g p).score = p.score)
    (h : Server.ScoreInv s picks used) (s2 : Server.ServerState ℝ)
    (he : s2.players = s.players.map g) : Server.ScoreInv s2 picks used := by
  obtain ⟨h1, h2, h3, h4⟩ := h
  rw [Server.ScoreInv, he]
  refine ⟨?_, h2, ?_, ?_⟩
  · intro p2 hp2
    obtain ⟨p, hp, rfl⟩ := List.mem_map.mp hp2
    rw [(hg p).1]
    exact h1 p hp
  · rw [List.map_map]
    have hcg : s.players.map (Server.Player.id ∘ g) = s.players.map Server.Player.id :=
      List.map_congr_left (fun a _ => (hg a).1)
    rw [hcg]
    exact h3
  · intro p2 hp2
    obtain ⟨p, hp, rfl⟩ := List.mem_map.mp hp2
    rw [(hg p).1, (hg p).2]
    exact h4 p hp

theorem scoreInv_filter {s : Server.ServerState ℝ} {picks : List (String × String)}
    {used : List String} (pred : Server.Player ℝ → Bool)
    (h : Server.ScoreInv s picks used) (s2 : Server.ServerState ℝ)
    (he : s2.players = s.players.filter pred) : Server.ScoreInv s2 picks used := by
  obtain ⟨h1, h2, h3, h4⟩ := h
  rw [Server.ScoreInv, he]
  refine ⟨?_, h2, ?_, ?_⟩
  · intro p hp
    exact h1 p (List.mem_of_mem_filter hp)
  · exact ((List.filter_sublist s.players).map Server.Player.id).nodup h3
  · intro p hp
    exact h4 p (List.mem_of_mem_filter hp)

theorem scoreInv_used_mono {s : Server.ServerState ℝ}
    {picks : List (String × String)} {used used2 : List String}
    (h : Server.ScoreInv s picks used) (hsub : ∀ id ∈ used, id ∈ used2) :
    Server.ScoreInv s picks used2 := by
  obtain ⟨h1, h2, h3, h4⟩ := h
  exact ⟨fun p hp => hsub _ (h1 p hp), fun pk hpk => hsub _ (h2 pk hpk), h3, h4⟩

theorem input_players_shape {α : Type} [LinearOrderedField α]
    (s : Server.ServerState α) (conn : String) (im : Server.InputMsg) (now : ℤ)
    (newId : String) (rx ry : α) :
    (Server.handleClientMessage s conn (.input im) now newId rx ry).1.players =
      s.players ∨
    ∃ pid, (Server.handleClientMessage s conn (.input im) now newId rx ry).1.players =
      s.players.map (fun p => if p.id = pid then Server.applyInput p im now else p) := by
  cases hsg : Server.socketsGet s.sockets conn with
  | none =>
    left
    simp [Server.handleClientMessage, hsg]
  | some o =>
    cases o with
    | none =>
      left
      simp [Server.handleClientMessage, hsg]
    | some pid =>
      by_cases hp : (s.players.find? (fun p => p.id = pid)).isSome
      · right
        refine ⟨pid, ?_⟩
        simp [Server.handleClientMessage, hsg, hp]
      · left
        simp [Server.handleClientMessage, hsg, hp]

theorem joinIds_cons (ev : Server.SEv) (evs : List Server.SEv) :
    Server.joinIds (ev :: evs) = Server.joinIds [ev] ++ Server.joinIds evs := by
  cases ev with
  | clientMsg conn msg now newId rx ry =>
    cases msg <;> rfl
  | connect conn now => rfl
  | tick now coinId rx ry => rfl
  | close conn => rfl
  | sweep now => rfl
  | spawnCmd coinId rx ry => rfl

/-- Every server event preserves the score bookkeeping invariant, extending
the pick list by the event's pickups and the used ids by its join id. -/
theorem sStep_scoreInv {s : Server.ServerState ℝ} {picks : List (String × String)}
    {used : List String} (ev : Server.SEv) (h : Server.ScoreInv s picks used)
    (hfresh : ∀ id ∈ Server.joinIds [ev], id ∉ used) :
    Server.ScoreInv (Server.sStep s ev).1 (picks ++ (Server.sStep s ev).2)
      (used ++ Server.joinIds [ev]) := by
  cases ev with
  | connect conn now =>
    rw [show (Server.sStep s (.connect conn now)).2 = [] from rfl, List.append_nil,
      show Server.joinIds [Server.SEv.connect conn now] = [] from rfl, List.append_nil]
    exact scoreInv_of_players_eq h rfl
  | clientMsg conn msg now newId rx ry =>
    cases msg with
    | join name =>
      have hj : Server.joinIds [Server.SEv.clientMsg conn (.join name) now newId rx ry] =
          [newId] := rfl
      have hnew : newId ∉ used := hfresh newId (by rw [hj]; exact List.mem_singleton.mpr rfl)
      rw [show (Server.sStep s (.clientMsg conn (.join name) now newId rx ry)).2 = []
        from rfl, List.append_nil, hj]
      by_cases hcap : MAX_PLAYERS ≤ s.players.length
      · have hs : (Server.sStep s (.clientMsg conn (.join name) now newId rx ry)).1 = s := by
          simp [Server.sStep, Server.handleClientMessage, hcap]
        rw [hs]
        exact scoreInv_used_mono h (fun id hid => List.mem_append_left _ hid)
      · have hs : (Server.sStep s (.clientMsg conn (.join name) now newId rx ry)).1.players =
            s.players ++ [Server.joinPlayer newId name now rx ry] := by
          simp [Server.sStep, Server.handleClientMessage, hcap]
        obtain ⟨h1, h2, h3, h4⟩ := h
        simp only [Server.ScoreInv]
        rw [hs]
        refine ⟨?_, ?_, ?_, ?_⟩
        · intro p hp
          rcases List.mem_append.mp hp with hold | hnw
          · exact List.mem_append_left _ (h1 p hold)
          · rcases List.mem_singleton.mp hnw with rfl
            exact List.mem_append_right _ (List.mem_singleton.mpr rfl)
        · intro pk hpk
          exact List.mem_append_left _ (h2 pk hpk)
        · rw [List.map_append, List.map_singleton, List.nodup_append]
          refine ⟨h3, by simp, ?_⟩
          intro a ha hmem
          have ha2 : a = newId := by simpa using hmem
          obtain ⟨x, hx, hxeq⟩ := List.mem_map.mp ha
          rw [ha2] at hxeq
          exact hnew (hxeq ▸ h1 x hx)
        · intro p hp
          rcases List.mem_append.mp hp with hold | hnw
          · exact h4 p hold
          · rcases List.mem_singleton.mp hnw with rfl
            rw [show (Server.joinPlayer newId name now rx ry).score = 0 from rfl]
            rw [show (Server.joinPlayer newId name now rx ry).id = newId from rfl]
            exact (pickCount_eq_zero h2 hnew).symm
    | input im =>
      rw [show (Server.sStep s (.clientMsg conn (.input im) now newId rx ry)).2 = []
        from rfl, List.append_nil,
        show Server.joinIds [Server.SEv.clientMsg conn (.input im) now newId rx ry] = []
        from rfl, List.append_nil]
      rcases input_players_shape s conn im now newId rx ry with he | ⟨pid, he⟩
      · exact scoreInv_of_players_eq h he
      · refine scoreInv_map _ ?_ h _ he
        intro p
        by_cases hid : p.id = pid <;> simp [hid, applyInput_id_score]
    | ping ts =>
      rw [show (Server.sStep s (.clientMsg conn (.ping ts) now newId rx ry)).2 = []
        from rfl, List.append_nil,
        show Server.joinIds [Server.SEv.clientMsg conn (.ping ts) now newId rx ry] = []
        from rfl, List.append_nil]
      exact scoreInv_of_players_eq h (by simp [Server.sStep, Server.handleClientMessage])
    | other =>
      rw [show (Server.sStep s (.clientMsg conn .other now newId rx ry)).2 = []
        from rfl, List.append_nil,
        show Server.joinIds [Server.SEv.clientMsg conn .other now newId rx ry] = []
        from rfl, List.append_nil]
      exact scoreInv_of_players_eq h (by simp [Server.sStep, Server.handleClientMessage])
  | tick now coinId rx ry =>
    rw [show Server.joinIds [Server.SEv.tick now coinId rx ry] = [] from rfl,
      List.append_nil]
    obtain ⟨h1, h2, h3, h4⟩ := h
    have hplayers : (Server.sStep s (.tick now coinId rx ry)).1.players =
        (Server.resolveCoins (s.players.map Server.movePlayer) s.coins).1 := by
      simp [Server.sStep, Server.gameTick]
    have hpicks : (Server.sStep s (.tick now coinId rx ry)).2 =
        (Server.resolveCoins (s.players.map Server.movePlayer) s.coins).2.2 := by
      simp [Server.sStep, Server.gameTick]
    have hidm : (s.players.map Server.movePlayer).map Server.Player.id =
        s.players.map Server.Player.id := by
      rw [List.map_map]
      exact List.map_congr_left (fun a _ => rfl)
    have hnd2 : ((s.players.map Server.movePlayer).map Server.Player.id).Nodup := by
      rw [hidm]
      exact h3
    rw [Server.resolveCoins] at hplayers hpicks
    have hsc := rcFold_scores s.coins (s.players.map Server.movePlayer) [] [] hnd2
    have hspec := rcFold_spec s.coins (s.players.map Server.movePlayer) [] []
    have hnewpick : ∀ pk ∈ (s.coins.foldl Server.rcStep
        (s.players.map Server.movePlayer, [], [])).2.2, pk.2 ∈ used := by
      intro pk hpk
      rw [hspec.2.2, List.nil_append] at hpk
      obtain ⟨c, -, hc⟩ := List.mem_filterMap.mp hpk
      cases hfq : (s.players.map Server.movePlayer).find? (Server.hitB c) with
      | none => rw [hfq] at hc; cases hc
      | some q =>
        rw [hfq] at hc
        have hq : q ∈ s.players.map Server.movePlayer := List.mem_of_find?_eq_some hfq
        obtain ⟨p0, hp0, rfl⟩ := List.mem_map.mp hq
        rw [Option.map_some'] at hc
        rw [← Option.some.inj hc]
        exact h1 p0 hp0
    simp only [Server.ScoreInv]
    rw [hplayers, hpicks]
    refine ⟨?_, ?_, ?_, ?_⟩
    · intro p2 hp2
      obtain ⟨p1, hp1, hid12, -⟩ := hsc p2 hp2
      obtain ⟨p0, hp0, rfl⟩ := List.mem_map.mp hp1
      rw [hid12]
      exact h1 p0 hp0
    · intro pk hpk
      rcases List.mem_append.mp hpk with hold | hnw
      · exact h2 pk hold
      · exact hnewpick pk hnw
    · rw [map_id_of_strip hspec.1, hidm]
      exact h3
    · intro p2 hp2
      obtain ⟨p1, hp1, hid12, hsco12⟩ := hsc p2 hp2
      obtain ⟨p0, hp0, rfl⟩ := List.mem_map.mp hp1
      rw [pickCount_append, hid12, hspec.2.2, List.nil_append]
      have hms : (Server.movePlayer p0).score =
          Server.pickCount picks ((Server.movePlayer p0).id) := h4 p0 hp0
      rw [hsco12, hms]
  | close conn =>
    rw [show (Server.sStep s (.close conn)).2 = [] from rfl, List.append_nil,
      show Server.joinIds [Server.SEv.close conn] = [] from rfl, List.append_nil]
    cases hsg : Server.socketsGet s.sockets conn with
    | none =>
      exact scoreInv_of_players_eq h (by simp [Server.sStep, Server.closeConn, hsg])
    | some o =>
      cases o with
      | none =>
        exact scoreInv_of_players_eq h (by simp [Server.sStep, Server.closeConn, hsg])
      | some id =>
        refine scoreInv_filter (fun p => decide (¬ p.id = id)) h _ ?_
        simp [Server.sStep, Server.closeConn, hsg]
  | sweep now =>
    rw [show (Server.sStep s (.sweep now)).2 = [] from rfl, List.append_nil,
      show Server.joinIds [Server.SEv.sweep now] = [] from rfl, List.append_nil]
    refine scoreInv_filter (fun p => decide (¬ 60000 < now - p.lastSeen)) h _ ?_
    simp [Server.sStep, Server.sweepTimeouts]
  | spawnCmd coinId rx ry =>
    rw [show (Server.sStep s (.spawnCmd coinId rx ry)).2 = [] from rfl, List.append_nil,
      show Server.joinIds [Server.SEv.spawnCmd coinId rx ry] = [] from rfl,
      List.append_nil]
    exact scoreInv_of_players_eq h rfl

/-- The invariant extends along any trace whose join uuids are fresh. -/
theorem sfold_scoreInv :
    ∀ (evs : List Server.SEv) (s : Server.ServerState ℝ)
      (picks : List (String × String)) (used : List String),
      Server.ScoreInv s picks used →
      (Server.joinIds evs).Nodup →
      (∀ id ∈ Server.joinIds evs, id ∉ used) →
      Server.ScoreInv
        (evs.foldl (fun acc ev =>
          let r := Server.sStep acc.1 ev
          (r.1, acc.2 ++ r.2)) (s, picks)).1
        (evs.foldl (fun acc ev =>
          let r := Server.sStep acc.1 ev
          (r.1, acc.2 ++ r.2)) (s, picks)).2
        (used ++ Server.joinIds evs) := by
  intro evs
  induction evs with
  | nil =>
    intro s picks used h _ _
    rw [show Server.joinIds ([] : List Server.SEv) = [] from rfl, List.append_nil]
    exact h
  | cons ev evs ih =>
    intro s picks used h hnd hfr
    rw [joinIds_cons] at hnd hfr
    have hnd1 := (List.nodup_append.mp hnd).2.1
    have hdisj := (List.nodup_append.mp hnd).2.2
    have hstep := sStep_scoreInv ev h
      (fun id hid => hfr id (List.mem_append_left _ hid))
    have hfr2 : ∀ id ∈ Server.joinIds evs, id ∉ used ++ Server.joinIds [ev] := by
      intro id hid hmem
      rcases List.mem_append.mp hmem with h2 | h2
      · exact hfr id (List.mem_append_right _ hid) h2
      · exact hdisj h2 hid
    rw [List.foldl_cons, joinIds_cons, ← List.append_assoc]
    exact ih _ _ _ hstep hnd1 hfr2

/-- C10: scores are born zero at join, never decrease under any server event,
and after any trace with fresh join uuids every player's score equals exactly
the number of coin pickups credited to that player since it joined. -/
theorem score_counts_pickups (evs : List Server.SEv)
    (hnd : (Server.joinIds evs).Nodup) :
    (∀ (α : Type) [inst : LinearOrderedField α] (id2 : String)
        (name : Option String) (now : ℤ) (rx ry : α),
      (Server.joinPlayer id2 name now rx ry).score = 0) ∧
    (∀ p ∈ (Server.sRun evs).1.players,
      p.score = Server.pickCount (Server.sRun evs).2 p.id) ∧
    (∀ (ev : Server.SEv) (p p2 : Server.Player ℝ),
      (Server.joinIds (evs ++ [ev])).Nodup →
      p ∈ (Server.sRun evs).1.players →
      p2 ∈ (Server.sRun (evs ++ [ev])).1.players → p2.id = p.id →
      p.score ≤ p2.score) := by
  have hmain : ∀ (evs2 : List Server.SEv), (Server.joinIds evs2).Nodup →
      Server.ScoreInv (Server.sRun evs2).1 (Server.sRun evs2).2
        (Server.joinIds evs2) := by
    intro evs2 hnd2
    have h0 : Server.ScoreInv Server.sInit [] [] := by
      refine ⟨?_, ?_, ?_, ?_⟩ <;> simp [Server.sInit]
    have h1 := sfold_scoreInv evs2 Server.sInit [] [] h0 hnd2 (by simp)
    rw [List.nil_append] at h1
    exact h1
  have hrun : ∀ (l : List Server.SEv) (ev2 : Server.SEv),
      Server.sRun (l ++ [ev2]) =
        ((Server.sStep (Server.sRun l).1 ev2).1,
         (Server.sRun l).2 ++ (Server.sStep (Server.sRun l).1 ev2).2) := by
    intro l ev2
    unfold Server.sRun
    rw [List.foldl_append]
    rfl
  refine ⟨?_, ?_, ?_⟩
  · intro α _ id2 name now rx ry
    rfl
  · intro p hp
    exact (hmain evs hnd).2.2.2 p hp
  · intro ev p p2 hnd2 hp hp2 hid
    have h1 := (hmain evs hnd).2.2.2 p hp
    have h2 := (hmain (evs ++ [ev]) hnd2).2.2.2 p2 hp2
    rw [hrun evs ev, pickCount_append, hid] at h2
    omega

/-- Closed instance of C10: a single join creates one player with score 0,
matching the empty pick list. -/
theorem score_counts_pickups_witness :
    (Server.sRun [Server.SEv.clientMsg "c" (.join none) 0 "p1" 0 0]).1.players =
      [Server.joinPlayer "p1" none 0 (0 : ℝ) 0] ∧
    (Server.joinPlayer "p1" (none : Option String) 0 (0 : ℝ) 0).score =
      Server.pickCount
        (Server.sRun [Server.SEv.clientMsg "c" (.join none) 0 "p1" 0 0]).2
        (Server.joinPlayer "p1" (none : Option String) 0 (0 : ℝ) 0).id := by
  have hplayers : (Server.sRun [Server.SEv.clientMsg "c" (.join none) 0 "p1" 0 0]).1.players =
      [Server.joinPlayer "p1" none 0 (0 : ℝ) 0] := by
    simp [Server.sRun, Server.sStep, Server.handleClientMessage, Server.sInit,
      MAX_PLAYERS]
  refine ⟨hplayers, ?_⟩
  exact (score_counts_pickups [Server.SEv.clientMsg "c" (.join none) 0 "p1" 0 0]
    (by decide)).2.1 _ (by rw [hplayers]; exact List.mem_singleton.mpr rfl)

end CoinCollector
